import Mathlib

/-!
# Verification of the diskcache-server HTTP blob cache

Shallow embedding of `src/main.py` (the FastAPI facade, `CustomDisk`,
`CustomCache`) together with the parts of the `diskcache` library that the
facade relies on (the metadata index operations and the eviction sweep),
which are not part of this repository's sources and are therefore modelled
from the specification (§4.B–§4.D).

Bytes are `List Nat` (each element a byte value), machine words are `Nat`
reduced modulo `2^32` where Python's `hashlib` works on 32-bit words,
wall-clock instants are `Int` seconds, and the SQLite `Cache` table is a
list of rows in rowid order.
-/

namespace DiskcacheServer

/-- A byte string: the contents of a request body, a stored value, a file. -/
abbrev Bytes := List Nat

/-! ## SHA-256 (`hashlib.sha256`, FIPS 180-4), on bytes, words mod 2^32 -/

/-- Truncate to a 32-bit word. -/
def w32 (x : Nat) : Nat := x % 4294967296

/-- Right rotation of a 32-bit word (input assumed `< 2^32`). -/
def rotr32 (n x : Nat) : Nat := (x >>> n) + (x % 2 ^ n) * 2 ^ (32 - n)

def sigBig0 (x : Nat) : Nat := rotr32 2 x ^^^ rotr32 13 x ^^^ rotr32 22 x

def sigBig1 (x : Nat) : Nat := rotr32 6 x ^^^ rotr32 11 x ^^^ rotr32 25 x

def sigSml0 (x : Nat) : Nat := rotr32 7 x ^^^ rotr32 18 x ^^^ (x >>> 3)

def sigSml1 (x : Nat) : Nat := rotr32 17 x ^^^ rotr32 19 x ^^^ (x >>> 10)

/-- `Ch(x,y,z)`; `¬x` is taken as xor with the 32-bit all-ones mask. -/
def chF (x y z : Nat) : Nat := (x &&& y) ^^^ ((x ^^^ 4294967295) &&& z)

def majF (x y z : Nat) : Nat := (x &&& y) ^^^ (x &&& z) ^^^ (y &&& z)

/-- The 64 round constants of FIPS 180-4, written in decimal. -/
def shaK : List Nat :=
  [1116352408, 1899447441, 3049323471, 3921009573, 961987163,
   1508970993, 2453635748, 2870763221, 3624381080, 310598401,
   607225278, 1426881987, 1925078388, 2162078206, 2614888103,
   3248222580, 3835390401, 4022224774, 264347078, 604807628,
   770255983, 1249150122, 1555081692, 1996064986, 2554220882,
   2821834349, 2952996808, 3210313671, 3336571891, 3584528711,
   113926993, 338241895, 666307205, 773529912, 1294757372,
   1396182291, 1695183700, 1986661051, 2177026350, 2456956037,
   2730485921, 2820302411, 3259730800, 3345764771, 3516065817,
   3600352804, 4094571909, 275423344, 430227734, 506948616,
   659060556, 883997877, 958139571, 1322822218, 1537002063,
   1747873779, 1955562222, 2024104815, 2227730452, 2361852424,
   2428436474, 2756734187, 3204031479, 3329325298]

/-- The eight initial hash words of FIPS 180-4, written in decimal. -/
def shaH0 : List Nat :=
  [1779033703, 3144134277, 1013904242, 2773480762,
   1359893119, 2600822924, 528734635, 1541459225]

/-- Message padding: `0x80`, zeros to 56 mod 64, then the 64-bit big-endian
bit length. -/
def padMessage (msg : Bytes) : Bytes :=
  let L := msg.length
  let z := (119 - L % 64) % 64
  let bitLen := 8 * L
  msg ++ [128] ++ List.replicate z 0 ++
    (List.range 8).map (fun i => (bitLen >>> (8 * (7 - i))) % 256)

/-- Group bytes four at a time into big-endian 32-bit words. -/
def bytesToWords : Bytes → List Nat
  | b0 :: b1 :: b2 :: b3 :: rest =>
      (((b0 * 256 + b1) * 256 + b2) * 256 + b3) :: bytesToWords rest
  | _ => []

/-- Extend the 16-word schedule (kept reversed, newest first) by `n` words. -/
def extendSchedule (rev : List Nat) : Nat → List Nat
  | 0 => rev
  | n + 1 =>
      let nw := w32 (sigSml1 (rev.getD 1 0) + rev.getD 6 0 +
        sigSml0 (rev.getD 14 0) + rev.getD 15 0)
      extendSchedule (nw :: rev) n

/-- The 64-word message schedule of one 64-byte block. -/
def schedule (block : Bytes) : List Nat :=
  (extendSchedule (bytesToWords block).reverse 48).reverse

/-- One compression round on the 8-word working state. -/
def compressStep (st : List Nat) (kw : Nat × Nat) : List Nat :=
  match st with
  | [a, b, c, d, e, f, g, h] =>
      let t1 := w32 (h + sigBig1 e + chF e f g + kw.1 + kw.2)
      let t2 := w32 (sigBig0 a + majF a b c)
      [w32 (t1 + t2), a, b, c, w32 (d + t1), e, f, g]
  | other => other

/-- Compress one block into the running hash state. -/
def processBlock (hsh : List Nat) (block : Bytes) : List Nat :=
  let st := (shaK.zip (schedule block)).foldl compressStep hsh
  (hsh.zip st).map (fun p => w32 (p.1 + p.2))

/-- Split a padded message into 64-byte blocks. -/
def splitBlocks (l : Bytes) : List Bytes :=
  (l.foldl
    (fun (st : List Bytes × Bytes) b =>
      let cur := st.2 ++ [b]
      if cur.length = 64 then (st.1 ++ [cur], []) else (st.1, cur))
    ([], [])).1

/-- The eight 32-bit words of the SHA-256 digest. -/
def sha256words (msg : Bytes) : List Nat :=
  (splitBlocks (padMessage msg)).foldl processBlock shaH0

/-- Lowercase hexadecimal digit characters. -/
def hexChar : Nat → Char
  | 0 => '0' | 1 => '1' | 2 => '2' | 3 => '3'
  | 4 => '4' | 5 => '5' | 6 => '6' | 7 => '7'
  | 8 => '8' | 9 => '9' | 10 => 'a' | 11 => 'b'
  | 12 => 'c' | 13 => 'd' | 14 => 'e' | _ => 'f'

/-- Eight lowercase hex characters of a 32-bit word, most significant first. -/
def wordHex (w : Nat) : List Char :=
  (List.range 8).map (fun i => hexChar ((w >>> (4 * (7 - i))) % 16))

/-- `hashlib.sha256(data).hexdigest()`: the lowercase hex SHA-256 digest. -/
def sha256hex (msg : Bytes) : String :=
  ⟨(sha256words msg).foldl (fun acc w => acc ++ wordHex w) []⟩

set_option maxRecDepth 100000 in
/-- Sanity: the digest of `b"hello world"` matches the spec's scenario 1. -/
theorem sha256hex_hello_world :
    sha256hex ((String.toList "hello world").map Char.toNat) =
      "b94d27b9934d3e08a52e52d7da7dabfac484efe37a5380ee9088f7ace2efcde9" := by
  decide

/-! ## Data model

Storage modes are the `diskcache.core` constants used by `CustomDisk`. -/

def MODE_RAW : Nat := 1

def MODE_BINARY : Nat := 2

/-- Configuration read from the environment at startup (`main.py`):
`disk_min_file_size` (the inline threshold), `VALUE_SIZE_LIMIT`,
`CACHE_SIZE_LIMIT` (`size_limit`), `cull_limit`. -/
structure Config where
  min_file_size : Nat
  value_size_limit : Nat
  size_limit : Nat
  cull_limit : Nat
deriving DecidableEq, Repr

/-- The deployment defaults: 32 KiB inline threshold, 300 MiB value ceiling,
8 GiB cache budget, 10 victims per sweep. -/
def defaultConfig : Config := ⟨32768, 314572800, 8589934592, 10⟩

/-- `DEFAULT_EXPIRE = 24 * 60 * 60` seconds. -/
def DEFAULT_EXPIRE : Int := 86400

/-- A header / tag mapping, insertion ordered like a Python `dict`. -/
abbrev Tag := List (String × String)

/-- `dict` lookup: the value of the first entry with the given key. -/
def hGet : Tag → String → Option String
  | [], _ => none
  | (k', v) :: rest, k => if k' = k then some v else hGet rest k

/-- `dict` assignment: replace the first entry with the key in place, else
append (Python dicts keep insertion order on update). -/
def tagSet : Tag → String → String → Tag
  | [], k, v => [(k, v)]
  | (k', v') :: rest, k, v =>
      if k' = k then (k, v) :: rest else (k', v') :: tagSet rest k v

/-- The blob directory: filenames mapped to file contents.  Writing a file
prepends (the newest entry shadows), unlinking removes every entry with
that name. -/
abbrev Fs := List (String × Bytes)

def fsGet : Fs → String → Option Bytes
  | [], _ => none
  | (n', d) :: rest, n => if n' = n then some d else fsGet rest n

/-- Create/overwrite the file `n` with contents `d`. -/
def fsWrite (fs : Fs) (n : String) (d : Bytes) : Fs := (n, d) :: fs

/-- `os.remove` for every captured filename (post-commit unlink). -/
def fsRemoveAll : Fs → List String → Fs
  | [], _ => []
  | p :: rest, names =>
      if p.1 ∈ names then fsRemoveAll rest names
      else p :: fsRemoveAll rest names

/-- One row of the SQLite `Cache` table (the columns `CustomCache` writes). -/
structure Row where
  rowid : Nat
  key : String
  store_time : Int
  expire_time : Option Int
  access_time : Int
  access_count : Nat
  tag : Tag
  size : Nat
  mode : Nat
  filename : Option String
  value : Option Bytes
deriving DecidableEq, Repr

/-- The `Cache` table in rowid order. -/
abbrev Db := List Row

/-- Well-formedness maintained by the SQLite schema: the unique index on the
key column, and primary-key rowids. -/
def dbWF (db : Db) : Prop := (db.map Row.key).Nodup ∧ (db.map Row.rowid).Nodup

/-- An unused rowid for a fresh insert. -/
def nextRowid (db : Db) : Nat := ((db.map Row.rowid).foldl max 0) + 1

/-- `volume()`: modelled from the spec (§3 invariant 4) as the sum of entry
sizes, the `diskcache` library's page accounting being outside this
repository's sources. -/
def dbVolume (db : Db) : Nat := (db.map Row.size).sum

/-- A row is visible to readers: `expire_time IS NULL OR expire_time > now`
(the `diskcache` library's lookup filter; spec §4.B treats
`expire-at ≤ now` as absent). -/
def rowLive (now : Int) (r : Row) : Bool :=
  match r.expire_time with
  | none => true
  | some e => e > now

/-- A row the eviction sweep's expired pass drops: `expire_time < now`
(strict, following the library; at `expire_time = now` a row is retained but
already invisible to readers). -/
def rowExpired (now : Int) (r : Row) : Bool :=
  match r.expire_time with
  | none => false
  | some e => e < now

def findRow? (p : Row → Bool) : Db → Option Row
  | [] => none
  | r :: rest => if p r then some r else findRow? p rest

/-- The whole server state: the metadata index and the blob directory. -/
structure ServerState where
  db : Db
  fs : Fs
deriving DecidableEq, Repr

/-! ## Blob store: `CustomDisk.astore` -/

/-- The errors `CustomDisk` raises. -/
inductive PutError where
  | sizeDifferent
  | valueSizeLimit
deriving DecidableEq, Repr

/-- What `astore` returns on success:
`(size, mode, filename, db_value, digest)`. -/
structure StoreRes where
  size : Nat
  mode : Nat
  filename : Option String
  db_value : Option Bytes
  digest : String
deriving DecidableEq, Repr

instance {ε α : Type} [DecidableEq ε] [DecidableEq α] :
    DecidableEq (Except ε α) := fun a b =>
  match a, b with
  | .error e1, .error e2 =>
      if h : e1 = e2 then isTrue (by rw [h]) else isFalse (by simp [h])
  | .error _, .ok _ => isFalse (by simp)
  | .ok _, .error _ => isFalse (by simp)
  | .ok x, .ok y =>
      if h : x = y then isTrue (by rw [h]) else isFalse (by simp [h])

/-- A request body as the chunk stream `request.stream()` yields it;
`astore` stops at the first empty chunk (`if not chunk: break`). -/
def streamBytes : List Bytes → Bytes
  | [] => []
  | c :: rest => if c = [] then [] else c ++ streamBytes rest

/-- The accumulation loop of `CustomDisk._astore_raw`: gather chunks in
memory, failing as soon as the running size exceeds the declared length. -/
def astoreRawLoop (cl : Int) : List Bytes → Bytes → Nat →
    Except PutError (Bytes × Nat)
  | [], acc, size => .ok (acc, size)
  | c :: rest, acc, size =>
      if c = [] then .ok (acc, size)
      else
        let size' := size + c.length
        if (size' : Int) > cl then .error .sizeDifferent
        else astoreRawLoop cl rest (acc ++ c) size'

/-- `CustomDisk._astore_raw`: buffer the body in memory and return an inline
(`MODE_RAW`) result; a final size different from the declared length raises
`SizeDifferentException`. -/
def astoreRaw (chunks : List Bytes) (cl : Int) : Except PutError StoreRes :=
  match astoreRawLoop cl chunks [] 0 with
  | .error e => .error e
  | .ok (acc, size) =>
      if (size : Int) = cl then
        .ok ⟨size, MODE_RAW, none, some acc, sha256hex acc⟩
      else .error .sizeDifferent

/-- The write loop of the file branch of `CustomDisk.astore`: append chunks
to the file, failing once the running size exceeds `VALUE_SIZE_LIMIT`; the
chunk that crosses the limit is not written.  Returns the bytes actually
written together with the outcome. -/
def astoreFileLoop (limit : Nat) : List Bytes → Bytes → Nat →
    Bytes × Except PutError Nat
  | [], acc, size => (acc, .ok size)
  | c :: rest, acc, size =>
      if c = [] then (acc, .ok size)
      else
        let size' := size + c.length
        if size' > limit then (acc, .error .valueSizeLimit)
        else astoreFileLoop limit rest (acc ++ c) size'

/-- The file branch of `CustomDisk.astore`: create the file (the name comes
from `self.filename`, a fresh uuid-sharded path, passed here as `fname`),
stream the body into it, and return a `MODE_BINARY` result.  On either
exception the bytes written so far remain on disk: nothing in the source
unlinks them. -/
def astoreFile (cfg : Config) (fs : Fs) (fname : String) (chunks : List Bytes)
    (cl : Option Int) : Fs × Except PutError StoreRes :=
  let wr := astoreFileLoop cfg.value_size_limit chunks [] 0
  let fs' := fsWrite fs fname wr.1
  match wr.2 with
  | .error e => (fs', .error e)
  | .ok size =>
      match cl with
      | some c =>
          if (size : Int) = c then
            (fs', .ok ⟨size, MODE_BINARY, some fname, none, sha256hex wr.1⟩)
          else (fs', .error .sizeDifferent)
      | none => (fs', .ok ⟨size, MODE_BINARY, some fname, none, sha256hex wr.1⟩)

/-- `CustomDisk.astore`: store inline exactly when a content length was
declared and it is below `min_file_size`; otherwise write a file. -/
def astore (cfg : Config) (fs : Fs) (fname : String) (chunks : List Bytes)
    (cl : Option Int) : Fs × Except PutError StoreRes :=
  match cl with
  | some c =>
      if c < (cfg.min_file_size : Int) then (fs, astoreRaw chunks c)
      else astoreFile cfg fs fname chunks (some c)
  | none => astoreFile cfg fs fname chunks none

/-! ## Eviction sweep

Modelled from the spec: the `diskcache` library's `_cull` is not part of
this repository's sources.  Per §4.D, entries with a past expiry are dropped
for free, then while the volume exceeds `size_limit` victims are evicted in
least-recently-stored order (the configured default policy), at most
`cull_limit` of them, capturing their filenames for post-commit unlink. -/

/-- The least-recently-stored victim: the first row with minimal
`store_time` (ties broken by rowid order, i.e. list position). -/
def lrsVictim (db : Db) : Option Row :=
  db.foldl
    (fun best r =>
      match best with
      | none => some r
      | some b => if r.store_time < b.store_time then some r else best)
    none

/-- The policy pass of the sweep. -/
def cullPolicyLoop (size_limit : Nat) : Nat → Db → Db × List String
  | 0, db => (db, [])
  | fuel + 1, db =>
      if dbVolume db ≤ size_limit then (db, [])
      else
        match lrsVictim db with
        | none => (db, [])
        | some v =>
            let pl := cullPolicyLoop size_limit fuel (db.erase v)
            (pl.1, (match v.filename with | some f => [f] | none => []) ++ pl.2)

/-- Filenames of the rows the expired pass drops. -/
def cullExpiredNames (now : Int) (db : Db) : List String :=
  (db.filter (rowExpired now)).filterMap Row.filename

/-- The whole eviction sweep run inside the upsert transaction. -/
def cull (cfg : Config) (now : Int) (db : Db) : Db × List String :=
  let pl := cullPolicyLoop cfg.size_limit cfg.cull_limit
    (db.filter (fun r => !rowExpired now r))
  (pl.1, cullExpiredNames now db ++ pl.2)

/-! ## Metadata index: `CustomCache._aset_transaction` -/

/-- `_row_update`: overwrite every column of a row except its rowid and key
(`store_time = access_time = now`, `access_count = 0`). -/
def updRow (now : Int) (expire_time : Option Int) (tag : Tag) (size : Nat)
    (mode : Nat) (filename : Option String) (dbValue : Option Bytes)
    (r : Row) : Row :=
  { r with
    store_time := now,
    expire_time := expire_time,
    access_time := now,
    access_count := 0,
    tag := tag,
    size := size,
    mode := mode,
    filename := filename,
    value := dbValue }

/-- The row update/insert step of `_aset_transaction`: locate any prior row
by key, capture its filename for post-commit unlink, then update it in place
(`_row_update`: same rowid) or insert a fresh row (`_row_insert`). -/
def rowUpsert (db : Db) (key : String) (now : Int) (expire_time : Option Int)
    (tag : Tag) (size : Nat) (mode : Nat) (filename : Option String)
    (dbValue : Option Bytes) : Db × List String :=
  match findRow? (fun r => r.key == key) db with
  | some r0 =>
      (db.map (fun r =>
          if r.rowid = r0.rowid then
            updRow now expire_time tag size mode filename dbValue r
          else r),
       match r0.filename with | some f => [f] | none => [])
  | none =>
      (db ++ [⟨nextRowid db, key, now, expire_time, now, 0, tag, size, mode,
        filename, dbValue⟩],
       [])

/-- The row that holds the new columns after `rowUpsert`: the prior row
updated in place, or the freshly inserted row. -/
def upsertNewRow (db : Db) (key : String) (now : Int)
    (expire_time : Option Int) (tag : Tag) (size : Nat) (mode : Nat)
    (filename : Option String) (dbValue : Option Bytes) : Row :=
  match findRow? (fun r => r.key == key) db with
  | some r0 => updRow now expire_time tag size mode filename dbValue r0
  | none => ⟨nextRowid db, key, now, expire_time, now, 0, tag, size, mode,
      filename, dbValue⟩

/-- `CustomCache._aset_transaction`: one transaction computing
`expire_time = now + expire` (or NULL), upserting the row, then invoking the
eviction sweep; returns the new table and the filenames captured for
post-commit unlink. -/
def aset_transaction (cfg : Config) (db : Db) (key : String) (now : Int)
    (expire : Option Int) (tag : Tag) (size : Nat) (mode : Nat)
    (filename : Option String) (dbValue : Option Bytes) : Db × List String :=
  let expire_time := expire.map (fun e => now + e)
  let up := rowUpsert db key now expire_time tag size mode filename dbValue
  let cu := cull cfg now up.1
  (cu.1, up.2 ++ cu.2)

/-- `CustomCache.aset`: run `astore`, stamp `Content-Length` and `Etag` into
the tag, commit the transaction, then unlink the captured filenames.  On a
disk error the exception propagates with the index untouched (but the blob
directory keeps whatever `astore` left there). -/
def aset (cfg : Config) (st : ServerState) (key : String) (chunks : List Bytes)
    (expire : Option Int) (tag0 : Tag) (cl : Option Int) (now : Int)
    (fname : String) : ServerState × Option PutError :=
  match astore cfg st.fs fname chunks cl with
  | (fs1, .error e) => (⟨st.db, fs1⟩, some e)
  | (fs1, .ok r) =>
      let tag := tagSet (tagSet tag0 "Content-Length" (toString r.size))
        "Etag" r.digest
      let tr := aset_transaction cfg st.db key now expire tag
        r.size r.mode r.filename r.db_value
      (⟨tr.1, fsRemoveAll fs1 tr.2⟩, none)

/-! ## Lookup: `diskcache.Cache.get` and `CustomDisk.fetch` -/

/-- `CustomDisk.fetch`: inline values come straight from the row, file
values are opened from the blob directory (a missing file is an `IOError`,
turned into a miss by `get`). -/
def fetch (fs : Fs) (mode : Nat) (filename : Option String)
    (value : Option Bytes) : Option Bytes :=
  if mode = MODE_RAW then value
  else
    match filename with
    | some f => fsGet fs f
    | none => none

/-- The library's `Cache.get` (with `read=True, expire_time=True, tag=True`)
as the facade uses it: select the live row for the key, fetch its value,
and return `(value, expire_time, tag)`; under the default
least-recently-stored policy a read updates no columns. -/
def cache_get (db : Db) (fs : Fs) (key : String) (now : Int) :
    Option (Bytes × Option Int × Tag) :=
  match findRow? (fun r => r.key == key && rowLive now r) db with
  | none => none
  | some r =>
      match fetch fs r.mode r.filename r.value with
      | none => none
      | some v => some (v, r.expire_time, r.tag)

/-! ## HTTP facade -/

/-- What a route handler produces: an HTTP response, or an exception that
escapes the handler (which the framework reports as a 500). -/
inductive HandlerResult where
  | resp (status : Nat) (body : String)
  | crash
deriving DecidableEq, Repr

/-- A GET response: status, headers, streamed body. -/
structure GetResponse where
  status : Nat
  headers : Tag
  body : Bytes
deriving DecidableEq, Repr

/-- The value of a run of decimal digits. -/
def digitsVal (l : List Char) : Nat :=
  l.foldl (fun a c => a * 10 + (c.toNat - 48)) 0

def parseDigits (l : List Char) : Option Nat :=
  if l = [] then none
  else if l.all Char.isDigit then some (digitsVal l) else none

/-- Python's `int(str)` on the inputs the facade meets: an optional sign
followed by decimal digits (surrounding whitespace and digit-group
underscores, which `int` also tolerates, do not occur in the claims). -/
def parsePyInt (s : String) : Option Int :=
  match s.toList with
  | '-' :: rest => (parseDigits rest).map (fun n => -(n : Int))
  | '+' :: rest => (parseDigits rest).map (fun n => (n : Int))
  | l => (parseDigits l).map (fun n => (n : Int))

/-- The reserved-prefix test `name.startswith(...)` with the two-character
prefix dash-slash. -/
def startsReserved (s : String) : Bool :=
  match s.toList with
  | '-' :: '/' :: _ => true
  | _ => false

/-- One `if request.headers.get(src):` block of `create_tag_from_request`:
copy the request header `src` into the tag under the name `dst` when it is
present and non-empty (Python's truthiness test). -/
def applyHeader (tag : Tag) (headers : Tag) (src dst : String) : Tag :=
  match hGet headers src with
  | some v => if v = "" then tag else tagSet tag dst v
  | none => tag

/-- `create_tag_from_request`: `Last-Modified` is the formatted current
time (passed in as `nowStr`); `x-set-cache-control`, `content-type` and
`content-encoding` are copied when present and non-empty. -/
def create_tag_from_request (nowStr : String) (headers : Tag) : Tag :=
  applyHeader
    (applyHeader
      (applyHeader [("Last-Modified", nowStr)]
        headers "x-set-cache-control" "Cache-Control")
      headers "content-type" "Content-Type")
    headers "content-encoding" "Content-Encoding"

/-- `int(request.headers.get(EXPIRE_HEADER, DEFAULT_EXPIRE))` — evaluated
outside any `try`, so a parse failure escapes the handler. -/
def parseExpire (headers : Tag) : Option Int :=
  match hGet headers "x-diskcache-expire" with
  | none => some DEFAULT_EXPIRE
  | some s => parsePyInt s

/-- The guarded `Content-Length` parse of `put_raw`: absent is allowed,
a present but invalid value is caught and mapped to a 400. -/
def parseCL (headers : Tag) : Except Unit (Option Int) :=
  match hGet headers "content-length" with
  | none => .ok none
  | some s =>
      match parsePyInt s with
      | some n => .ok (some n)
      | none => .error ()

/-- `PUT /{name:path}` (`put_raw`): reserved-prefix check, expire and
Content-Length parsing, then `aset` with the error mapping of the source.
`fname` is the fresh blob filename `self.filename` would generate and
`nowStr` the formatted `Last-Modified` value. -/
def put_raw (cfg : Config) (st : ServerState) (now : Int) (name : String)
    (headers : Tag) (body : List Bytes) (fname : String) (nowStr : String) :
    ServerState × HandlerResult :=
  if startsReserved name then
    (st, .resp 400 "path must not start with -/")
  else
    match parseExpire headers with
    | none => (st, .crash)
    | some expire =>
        match parseCL headers with
        | .error _ => (st, .resp 400 "invalid Content-Length value")
        | .ok cl =>
            let tag0 := create_tag_from_request nowStr headers
            match aset cfg st name body (some expire) tag0 cl now fname with
            | (st', some .valueSizeLimit) =>
                (st', .resp 400 "size limit exceeded")
            | (st', some .sizeDifferent) =>
                (st', .resp 400 "content-length different")
            | (st', none) => (st', .resp 200 "")

/-- The RFC 1123 rendering of a timestamp, abstracted to its decimal value:
no claim inspects the text of `Expire` or `Last-Modified`. -/
def expireFmt (e : Int) : String := toString e

/-- `GET /{name:path}` (`get_raw`): look up the live entry, add an `Expire`
header when the entry has a (truthy) expiry, answer 304 when
`If-None-Match` equals the stored `Etag` (with `"no-etag-found"` standing
in for a missing tag entry), else stream the value. -/
def get_raw (db : Db) (fs : Fs) (name : String) (now : Int)
    (ifNoneMatch : Option String) : GetResponse :=
  match cache_get db fs name now with
  | none => ⟨404, [], []⟩
  | some (v, expire_time, tag) =>
      let headers :=
        match expire_time with
        | some e => if e = 0 then tag else tagSet tag "Expire" (expireFmt e)
        | none => tag
      match ifNoneMatch with
      | some inm =>
          if (hGet tag "Etag").getD "no-etag-found" = inm then ⟨304, headers, []⟩
          else ⟨200, headers, v⟩
      | none => ⟨200, headers, v⟩

/-- The library's `Cache.delete`: remove the live row for the key inside a
transaction and unlink its file post-commit; `False` when no live row. -/
def cache_delete (st : ServerState) (name : String) (now : Int) :
    ServerState × Bool :=
  match findRow? (fun r => r.key == name && rowLive now r) st.db with
  | none => (st, false)
  | some r =>
      (⟨st.db.filter (fun x => x.rowid != r.rowid),
        match r.filename with
        | some f => st.fs.filter (fun p => p.1 != f)
        | none => st.fs⟩,
       true)

/-- `DELETE /{name:path}` (`delete_content`). -/
def delete_content (st : ServerState) (name : String) (now : Int) :
    ServerState × HandlerResult :=
  if startsReserved name then
    (st, .resp 400 "path must not start with -/")
  else
    match cache_delete st name now with
    | (st', false) => (st', .resp 404 "")
    | (st', true) => (st', .resp 200 "")

/-! ## Helper lemmas: header maps and the blob directory -/

theorem hGet_tagSet_self (t : Tag) (k v : String) :
    hGet (tagSet t k v) k = some v := by
  induction t with
  | nil => simp [tagSet, hGet]
  | cons p rest ih =>
      by_cases h : p.1 = k
      · simp [tagSet, hGet, h]
      · simp [tagSet, hGet, h, ih]

theorem hGet_tagSet_other (t : Tag) (k v : String) {k' : String}
    (h : k' ≠ k) : hGet (tagSet t k v) k' = hGet t k' := by
  induction t with
  | nil => simp [tagSet, hGet, Ne.symm h]
  | cons p rest ih =>
      by_cases hp : p.1 = k
      · subst hp
        simp [tagSet, hGet, Ne.symm h, h]
      · by_cases hp' : p.1 = k'
        · simp [tagSet, hGet, hp, hp', h]
        · simp [tagSet, hGet, hp, hp', ih]

theorem fsGet_fsWrite_self (fs : Fs) (n : String) (d : Bytes) :
    fsGet (fsWrite fs n d) n = some d := by
  simp [fsWrite, fsGet]

theorem fsGet_fsRemoveAll_of_not_mem (fs : Fs) (names : List String)
    {n : String} (h : n ∉ names) :
    fsGet (fsRemoveAll fs names) n = fsGet fs n := by
  induction fs with
  | nil => rfl
  | cons p rest ih =>
      by_cases hmem : p.1 ∈ names
      · have hne : p.1 ≠ n := fun he => h (he ▸ hmem)
        simp [fsRemoveAll, hmem, fsGet, hne, ih]
      · simp only [fsRemoveAll, hmem, if_false, fsGet]
        by_cases heq : p.1 = n
        · simp [heq]
        · simp [heq, ih]

/-! ## Helper lemmas: the blob store loops -/

theorem astoreRawLoop_ok {cl : Int} (chunks : List Bytes) (acc : Bytes)
    (size : Nat) {acc' : Bytes} {size' : Nat}
    (h : astoreRawLoop cl chunks acc size = .ok (acc', size')) :
    acc' = acc ++ streamBytes chunks ∧
      size' = size + (streamBytes chunks).length := by
  induction chunks generalizing acc size with
  | nil =>
      simp only [astoreRawLoop, Except.ok.injEq, Prod.mk.injEq] at h
      simp [streamBytes, h.1, h.2]
  | cons c rest ih =>
      simp only [astoreRawLoop] at h
      split at h
      · rename_i hc
        simp only [Except.ok.injEq, Prod.mk.injEq] at h
        simp [streamBytes, hc, h.1, h.2]
      · rename_i hc
        split at h
        · exact absurd h (by simp)
        · obtain ⟨h1, h2⟩ := ih _ _ h
          have hs : streamBytes (c :: rest) = c ++ streamBytes rest := by
            simp [streamBytes, hc]
          rw [hs]
          constructor
          · simp [h1]
          · simp only [List.length_append]
            omega

theorem astoreFileLoop_ok {limit : Nat} (chunks : List Bytes) (acc : Bytes)
    (size : Nat) {written : Bytes} {size' : Nat}
    (h : astoreFileLoop limit chunks acc size = (written, .ok size')) :
    written = acc ++ streamBytes chunks ∧
      size' = size + (streamBytes chunks).length := by
  induction chunks generalizing acc size with
  | nil =>
      simp only [astoreFileLoop, Prod.mk.injEq, Except.ok.injEq] at h
      simp [streamBytes, h.1, h.2]
  | cons c rest ih =>
      simp only [astoreFileLoop] at h
      split at h
      · rename_i hc
        simp only [Prod.mk.injEq, Except.ok.injEq] at h
        simp [streamBytes, hc, h.1, h.2]
      · rename_i hc
        split at h
        · exact absurd h (by simp)
        · obtain ⟨h1, h2⟩ := ih _ _ h
          have hs : streamBytes (c :: rest) = c ++ streamBytes rest := by
            simp [streamBytes, hc]
          rw [hs]
          constructor
          · simp [h1]
          · simp only [List.length_append]
            omega

theorem astoreRaw_ok {chunks : List Bytes} {cl : Int} {r : StoreRes}
    (h : astoreRaw chunks cl = .ok r) :
    r = ⟨(streamBytes chunks).length, MODE_RAW, none, some (streamBytes chunks),
      sha256hex (streamBytes chunks)⟩ ∧
      ((streamBytes chunks).length : Int) = cl := by
  unfold astoreRaw at h
  split at h
  · exact absurd h (by simp)
  · rename_i acc size hloop
    obtain ⟨h1, h2⟩ := astoreRawLoop_ok chunks [] 0 hloop
    simp only [List.nil_append] at h1
    simp only [Nat.zero_add] at h2
    split at h
    · rename_i hsz
      simp only [Except.ok.injEq] at h
      subst h
      subst h1
      subst h2
      exact ⟨rfl, hsz⟩
    · exact absurd h (by simp)

theorem astoreFile_ok {cfg : Config} {fs : Fs} {fname : String}
    {chunks : List Bytes} {cl : Option Int} {fs' : Fs} {r : StoreRes}
    (h : astoreFile cfg fs fname chunks cl = (fs', .ok r)) :
    fs' = fsWrite fs fname (streamBytes chunks) ∧
      r = ⟨(streamBytes chunks).length, MODE_BINARY, some fname, none,
        sha256hex (streamBytes chunks)⟩ := by
  rcases hloop : astoreFileLoop cfg.value_size_limit chunks [] 0 with ⟨written, res⟩
  simp only [astoreFile, hloop] at h
  cases res with
  | error e => simp at h
  | ok size =>
      obtain ⟨h1, h2⟩ := astoreFileLoop_ok chunks [] 0 hloop
      simp only [List.nil_append] at h1
      simp only [Nat.zero_add] at h2
      subst h1
      subst h2
      cases cl with
      | none =>
          simp only [Prod.mk.injEq, Except.ok.injEq] at h
          exact ⟨h.1.symm, h.2.symm⟩
      | some c =>
          simp only at h
          split at h
          · simp only [Prod.mk.injEq, Except.ok.injEq] at h
            exact ⟨h.1.symm, h.2.symm⟩
          · simp at h

/-- On success `astore` returns exactly the streamed bytes' length, their
digest, and either an inline value (filesystem untouched) or a fresh file
holding those bytes. -/
theorem astore_ok {cfg : Config} {fs : Fs} {fname : String}
    {chunks : List Bytes} {cl : Option Int} {fs' : Fs} {r : StoreRes}
    (h : astore cfg fs fname chunks cl = (fs', .ok r)) :
    r.size = (streamBytes chunks).length ∧
      r.digest = sha256hex (streamBytes chunks) ∧
      ((r.mode = MODE_RAW ∧ r.db_value = some (streamBytes chunks) ∧
          r.filename = none ∧ fs' = fs) ∨
        (r.mode = MODE_BINARY ∧ r.db_value = none ∧
          r.filename = some fname ∧
          fs' = fsWrite fs fname (streamBytes chunks))) := by
  unfold astore at h
  cases cl with
  | none =>
      obtain ⟨h1, h2⟩ := astoreFile_ok h
      subst h2
      exact ⟨rfl, rfl, Or.inr ⟨rfl, rfl, rfl, h1⟩⟩
  | some c =>
      simp only at h
      split at h
      · have h2 : astoreRaw chunks c = .ok r := by
          have := congrArg Prod.snd h
          simpa using this
        have h1 : fs' = fs := by
          have := congrArg Prod.fst h
          simpa using this.symm
        obtain ⟨hr, _⟩ := astoreRaw_ok h2
        subst hr
        exact ⟨rfl, rfl, Or.inl ⟨rfl, rfl, rfl, h1⟩⟩
      · obtain ⟨h1, h2⟩ := astoreFile_ok h
        subst h2
        exact ⟨rfl, rfl, Or.inr ⟨rfl, rfl, rfl, h1⟩⟩

/-! ## Helper lemmas: row lookup and uniqueness -/

theorem findRow?_some {p : Row → Bool} {l : Db} {r : Row}
    (h : findRow? p l = some r) : r ∈ l ∧ p r = true := by
  induction l with
  | nil => simp [findRow?] at h
  | cons x rest ih =>
      simp only [findRow?] at h
      split at h
      · rename_i hp
        cases h
        exact ⟨List.mem_cons_self _ _, hp⟩
      · obtain ⟨hm, hp⟩ := ih h
        exact ⟨List.mem_cons_of_mem _ hm, hp⟩

theorem findRow?_eq_none {p : Row → Bool} {l : Db}
    (h : findRow? p l = none) : ∀ r ∈ l, p r = false := by
  induction l with
  | nil => simp
  | cons x rest ih =>
      simp only [findRow?] at h
      split at h
      · simp at h
      · rename_i hp
        intro r hr
        rcases List.mem_cons.mp hr with hEq | hm
        · subst hEq
          simpa using hp
        · exact ih h r hm

/-- Distinct rows of a table whose images under `f` form a `Nodup` list are
separated by `f`. -/
theorem field_unique {α : Type} {f : Row → α} {l : Db}
    (h : (l.map f).Nodup) {r1 r2 : Row} (h1 : r1 ∈ l) (h2 : r2 ∈ l)
    (hk : f r1 = f r2) : r1 = r2 :=
  List.inj_on_of_nodup_map h h1 h2 hk

/-- If a predicate picks a unique key and a matching row is present in a
key-`Nodup` table, `findRow?` returns exactly that row. -/
theorem findRow?_of_unique {p : Row → Bool} {l : Db} {r : Row}
    (hnd : (l.map Row.key).Nodup) (hmem : r ∈ l) (hp : p r = true)
    (hkey : ∀ r' ∈ l, p r' = true → r'.key = r.key) :
    findRow? p l = some r := by
  induction l with
  | nil => simp at hmem
  | cons x rest ih =>
      simp only [findRow?]
      by_cases hx : p x = true
      · rw [if_pos hx]
        have hk : x.key = r.key := hkey x (List.mem_cons_self _ _) hx
        have : x = r := field_unique hnd (List.mem_cons_self _ _) hmem hk
        rw [this]
      · rw [if_neg hx]
        have hm : r ∈ rest := by
          rcases List.mem_cons.mp hmem with hEq | hm
          · exact absurd (hEq ▸ hp) hx
          · exact hm
        have hnd' : (rest.map Row.key).Nodup := by
          rw [List.map_cons] at hnd
          exact hnd.of_cons
        exact ih hnd' hm (fun r' h' => hkey r' (List.mem_cons_of_mem _ h'))

/-! ## Helper lemmas: volume and sublists -/

@[simp] theorem dbVolume_nil : dbVolume [] = 0 := rfl

@[simp] theorem dbVolume_cons (r : Row) (l : Db) :
    dbVolume (r :: l) = r.size + dbVolume l := by
  simp [dbVolume]

theorem dbVolume_append (l1 l2 : Db) :
    dbVolume (l1 ++ l2) = dbVolume l1 + dbVolume l2 := by
  simp [dbVolume]

theorem sum_le_of_sublist {l1 l2 : List Nat} (h : List.Sublist l1 l2) :
    l1.sum ≤ l2.sum := by
  induction h with
  | slnil => simp
  | cons a h ih => simp only [List.sum_cons]; omega
  | cons₂ a h ih => simp only [List.sum_cons]; omega

theorem dbVolume_le_of_sublist {l1 l2 : Db} (h : List.Sublist l1 l2) :
    dbVolume l1 ≤ dbVolume l2 :=
  sum_le_of_sublist (h.map Row.size)

/-- Replacing the (unique) row with a given rowid by a row of size `s` grows
the volume by at most `s`. -/
theorem dbVolume_update_le {db : Db} (hnd : (db.map Row.rowid).Nodup)
    (rid : Nat) {g : Row → Row} {s : Nat} (hg : ∀ r, (g r).size = s) :
    dbVolume (db.map (fun r => if r.rowid = rid then g r else r)) ≤
      dbVolume db + s := by
  induction db with
  | nil => simp
  | cons x rest ih =>
      simp only [List.map_cons, List.nodup_cons] at hnd
      by_cases hx : x.rowid = rid
      · have hrest : rest.map (fun r => if r.rowid = rid then g r else r)
            = rest := by
          have hid : rest.map (fun r => if r.rowid = rid then g r else r)
              = rest.map id := by
            apply List.map_congr_left
            intro r hr
            have hne : r.rowid ≠ rid := fun he =>
              hnd.1 (hx ▸ he ▸ List.mem_map_of_mem Row.rowid hr)
            simp [hne]
          simpa using hid
        simp only [List.map_cons, if_pos hx, dbVolume_cons, hrest]
        have := hg x
        omega
      · simp only [List.map_cons, if_neg hx, dbVolume_cons]
        have := ih hnd.2
        omega

/-! ## Helper lemmas: the eviction sweep -/

theorem cullPolicyLoop_noop {sl : Nat} {db : Db} (fuel : Nat)
    (h : dbVolume db ≤ sl) : cullPolicyLoop sl fuel db = (db, []) := by
  cases fuel with
  | zero => rfl
  | succ n => simp [cullPolicyLoop, h]

theorem cullPolicyLoop_sublist (sl fuel : Nat) (db : Db) :
    List.Sublist (cullPolicyLoop sl fuel db).1 db := by
  induction fuel generalizing db with
  | zero => simp [cullPolicyLoop]
  | succ n ih =>
      by_cases hvol : dbVolume db ≤ sl
      · simp [cullPolicyLoop, hvol]
      · cases hv : lrsVictim db with
        | none => simp [cullPolicyLoop, hvol, hv]
        | some v =>
            rcases hrec : cullPolicyLoop sl n (db.erase v) with ⟨db', fns⟩
            have hstep : cullPolicyLoop sl (n + 1) db =
                (db', (match v.filename with
                  | some f => [f] | none => []) ++ fns) := by
              simp [cullPolicyLoop, hvol, hv, hrec]
            rw [hstep]
            have h1 : List.Sublist db' (db.erase v) := by
              have := ih (db.erase v)
              rwa [hrec] at this
            exact h1.trans (List.erase_sublist v db)

theorem cullPolicyLoop_dropped {sl fuel : Nat} {db : Db} (hnd : db.Nodup)
    {r : Row} (hr : r ∈ db) (hout : r ∉ (cullPolicyLoop sl fuel db).1)
    {f : String} (hf : r.filename = some f) :
    f ∈ (cullPolicyLoop sl fuel db).2 := by
  induction fuel generalizing db with
  | zero => simp only [cullPolicyLoop] at hout; exact absurd hr hout
  | succ n ih =>
      by_cases hvol : dbVolume db ≤ sl
      · rw [cullPolicyLoop_noop _ hvol] at hout
        exact absurd hr hout
      · cases hv : lrsVictim db with
        | none =>
            simp only [cullPolicyLoop, if_neg hvol, hv] at hout
            exact absurd hr hout
        | some v =>
            rcases hrec : cullPolicyLoop sl n (db.erase v) with ⟨db', fns⟩
            have hstep : cullPolicyLoop sl (n + 1) db =
                (db', (match v.filename with
                  | some f => [f] | none => []) ++ fns) := by
              simp [cullPolicyLoop, hvol, hv, hrec]
            rw [hstep] at hout
            rw [hstep]
            simp only at hout ⊢
            by_cases hrv : r = v
            · subst hrv
              rw [hf]
              simp
            · have hr' : r ∈ db.erase v := (List.mem_erase_of_ne hrv).mpr hr
              have hout' : r ∉ (cullPolicyLoop sl n (db.erase v)).1 := by
                rw [hrec]; exact hout
              have := ih (hnd.erase v) hr' hout'
              rw [hrec] at this
              exact List.mem_append_right _ this

theorem mem_cullExpiredNames {now : Int} {db : Db} {f : String} :
    f ∈ cullExpiredNames now db ↔
      ∃ r ∈ db, rowExpired now r = true ∧ r.filename = some f := by
  simp only [cullExpiredNames, List.mem_filterMap, List.mem_filter]
  constructor
  · rintro ⟨r, ⟨hm, he⟩, hf⟩
    exact ⟨r, hm, he, hf⟩
  · rintro ⟨r, hm, he, hf⟩
    exact ⟨r, ⟨hm, he⟩, hf⟩

theorem cull_sublist (cfg : Config) (now : Int) (db : Db) :
    List.Sublist (cull cfg now db).1 db := by
  rcases hrec : cullPolicyLoop cfg.size_limit cfg.cull_limit
      (db.filter (fun r => !rowExpired now r)) with ⟨db', fns⟩
  have h1 : List.Sublist db' (db.filter (fun r => !rowExpired now r)) := by
    have := cullPolicyLoop_sublist cfg.size_limit cfg.cull_limit
      (db.filter (fun r => !rowExpired now r))
    rwa [hrec] at this
  simp only [cull, hrec]
  exact h1.trans (List.filter_sublist db)

/-- When the table already fits the budget, the sweep only drops expired
rows. -/
theorem cull_noop {cfg : Config} {now : Int} {db : Db}
    (h : dbVolume db ≤ cfg.size_limit) :
    cull cfg now db = (db.filter (fun r => !rowExpired now r),
      cullExpiredNames now db) := by
  have hk : dbVolume (db.filter (fun r => !rowExpired now r)) ≤
      cfg.size_limit :=
    le_trans (dbVolume_le_of_sublist (List.filter_sublist db)) h
  simp [cull, cullPolicyLoop_noop _ hk]

/-- Every row the sweep drops has its filename captured for unlink. -/
theorem cull_dropped {cfg : Config} {now : Int} {db : Db}
    (hnd : db.Nodup) {r : Row} (hr : r ∈ db)
    (hout : r ∉ (cull cfg now db).1) {f : String}
    (hf : r.filename = some f) : f ∈ (cull cfg now db).2 := by
  rcases hrec : cullPolicyLoop cfg.size_limit cfg.cull_limit
      (db.filter (fun r => !rowExpired now r)) with ⟨db', fns⟩
  simp only [cull, hrec] at hout ⊢
  by_cases hexp : rowExpired now r
  · exact List.mem_append_left _ (mem_cullExpiredNames.mpr ⟨r, hr, hexp, hf⟩)
  · have hrk : r ∈ db.filter (fun r => !rowExpired now r) :=
      List.mem_filter.mpr ⟨hr, by simp [hexp]⟩
    have hout' : r ∉ (cullPolicyLoop cfg.size_limit cfg.cull_limit
        (db.filter (fun r => !rowExpired now r))).1 := by
      rw [hrec]; exact hout
    have := cullPolicyLoop_dropped (hnd.filter _) hrk hout' hf
    rw [hrec] at this
    exact List.mem_append_right _ this

/-! ## Helper lemmas: the upsert step -/

@[simp] theorem updRow_key (now : Int) (et : Option Int) (tg : Tag) (sz : Nat)
    (md : Nat) (fn : Option String) (dv : Option Bytes) (r : Row) :
    (updRow now et tg sz md fn dv r).key = r.key := rfl

@[simp] theorem updRow_rowid (now : Int) (et : Option Int) (tg : Tag)
    (sz : Nat) (md : Nat) (fn : Option String) (dv : Option Bytes) (r : Row) :
    (updRow now et tg sz md fn dv r).rowid = r.rowid := rfl

@[simp] theorem updRow_size (now : Int) (et : Option Int) (tg : Tag)
    (sz : Nat) (md : Nat) (fn : Option String) (dv : Option Bytes) (r : Row) :
    (updRow now et tg sz md fn dv r).size = sz := rfl

theorem foldl_max_le_init (l : List Nat) (a : Nat) : a ≤ l.foldl max a := by
  induction l generalizing a with
  | nil => simp
  | cons x rest ih => exact le_trans (le_max_left a x) (ih (max a x))

theorem mem_le_foldl_max (l : List Nat) (a : Nat) :
    ∀ x ∈ l, x ≤ l.foldl max a := by
  induction l generalizing a with
  | nil => simp
  | cons y rest ih =>
      intro x hx
      rcases List.mem_cons.mp hx with e | m
      · subst e
        exact le_trans (le_max_right a x) (foldl_max_le_init rest (max a x))
      · exact ih (max a y) x m

theorem nextRowid_not_mem (db : Db) : nextRowid db ∉ db.map Row.rowid := by
  intro hmem
  have := mem_le_foldl_max (db.map Row.rowid) 0 _ hmem
  simp only [nextRowid] at this
  omega

theorem rowUpsert_map_key_update {db : Db} {key : String} {now : Int}
    {et : Option Int} {tg : Tag} {sz md : Nat} {fn : Option String}
    {dv : Option Bytes} {r0 : Row}
    (hfind : findRow? (fun r => r.key == key) db = some r0) :
    ((rowUpsert db key now et tg sz md fn dv).1).map Row.key =
      db.map Row.key := by
  simp only [rowUpsert, hfind, List.map_map]
  apply List.map_congr_left
  intro r _
  by_cases h : r.rowid = r0.rowid <;> simp [h, Function.comp]

theorem rowUpsert_map_rowid_update {db : Db} {key : String} {now : Int}
    {et : Option Int} {tg : Tag} {sz md : Nat} {fn : Option String}
    {dv : Option Bytes} {r0 : Row}
    (hfind : findRow? (fun r => r.key == key) db = some r0) :
    ((rowUpsert db key now et tg sz md fn dv).1).map Row.rowid =
      db.map Row.rowid := by
  simp only [rowUpsert, hfind, List.map_map]
  apply List.map_congr_left
  intro r _
  by_cases h : r.rowid = r0.rowid <;> simp [h, Function.comp]

theorem rowUpsert_keys_nodup {db : Db} {key : String} {now : Int}
    {et : Option Int} {tg : Tag} {sz md : Nat} {fn : Option String}
    {dv : Option Bytes} (hwf : dbWF db) :
    (((rowUpsert db key now et tg sz md fn dv).1).map Row.key).Nodup := by
  cases hfind : findRow? (fun r => r.key == key) db with
  | some r0 => rw [rowUpsert_map_key_update hfind]; exact hwf.1
  | none =>
      have hnotin : key ∉ db.map Row.key := by
        intro hmem
        rcases List.mem_map.mp hmem with ⟨r, hr, hkey⟩
        have := findRow?_eq_none hfind r hr
        simp [hkey] at this
      simp only [rowUpsert, hfind, List.map_append, List.map_cons,
        List.map_nil]
      simp [List.nodup_append, hwf.1, hnotin]

theorem rowUpsert_rowids_nodup {db : Db} {key : String} {now : Int}
    {et : Option Int} {tg : Tag} {sz md : Nat} {fn : Option String}
    {dv : Option Bytes} (hwf : dbWF db) :
    (((rowUpsert db key now et tg sz md fn dv).1).map Row.rowid).Nodup := by
  cases hfind : findRow? (fun r => r.key == key) db with
  | some r0 => rw [rowUpsert_map_rowid_update hfind]; exact hwf.2
  | none =>
      simp only [rowUpsert, hfind, List.map_append, List.map_cons,
        List.map_nil]
      simp [List.nodup_append, hwf.2, nextRowid_not_mem db]

theorem upsertNewRow_mem {db : Db} {key : String} {now : Int}
    {et : Option Int} {tg : Tag} {sz md : Nat} {fn : Option String}
    {dv : Option Bytes} :
    upsertNewRow db key now et tg sz md fn dv ∈
      (rowUpsert db key now et tg sz md fn dv).1 := by
  cases hfind : findRow? (fun r => r.key == key) db with
  | some r0 =>
      simp only [rowUpsert, upsertNewRow, hfind]
      obtain ⟨hm0, _⟩ := findRow?_some hfind
      exact List.mem_map.mpr ⟨r0, hm0, by simp⟩
  | none => simp [rowUpsert, upsertNewRow, hfind]

theorem upsertNewRow_fields {db : Db} {key : String} {now : Int}
    {et : Option Int} {tg : Tag} {sz md : Nat} {fn : Option String}
    {dv : Option Bytes} :
    (upsertNewRow db key now et tg sz md fn dv).key = key ∧
    (upsertNewRow db key now et tg sz md fn dv).expire_time = et ∧
    (upsertNewRow db key now et tg sz md fn dv).tag = tg ∧
    (upsertNewRow db key now et tg sz md fn dv).size = sz ∧
    (upsertNewRow db key now et tg sz md fn dv).mode = md ∧
    (upsertNewRow db key now et tg sz md fn dv).filename = fn ∧
    (upsertNewRow db key now et tg sz md fn dv).value = dv := by
  cases hfind : findRow? (fun r => r.key == key) db with
  | some r0 =>
      obtain ⟨_, hp⟩ := findRow?_some hfind
      have hk : r0.key = key := by simpa using hp
      simp [upsertNewRow, hfind, updRow, hk]
  | none => simp [upsertNewRow, hfind]

/-- Every row after the upsert is the upserted row or a pre-existing one. -/
theorem rowUpsert_mem {db : Db} {key : String} {now : Int}
    {et : Option Int} {tg : Tag} {sz md : Nat} {fn : Option String}
    {dv : Option Bytes} (hwf : dbWF db) :
    ∀ r' ∈ (rowUpsert db key now et tg sz md fn dv).1,
      r' = upsertNewRow db key now et tg sz md fn dv ∨ r' ∈ db := by
  cases hfind : findRow? (fun r => r.key == key) db with
  | some r0 =>
      intro r' hr'
      simp only [rowUpsert, hfind] at hr'
      rcases List.mem_map.mp hr' with ⟨a, ha, hfa⟩
      by_cases h : a.rowid = r0.rowid
      · left
        obtain ⟨hm0, _⟩ := findRow?_some hfind
        have haeq : a = r0 := field_unique hwf.2 ha hm0 h
        subst haeq
        rw [← hfa]
        simp [upsertNewRow, hfind, h]
      · right
        rw [← hfa]
        simp only [if_neg h]
        exact ha
  | none =>
      intro r' hr'
      simp only [rowUpsert, hfind] at hr'
      rcases List.mem_append.mp hr' with hm | hm
      · right; exact hm
      · left
        simp only [List.mem_singleton] at hm
        rw [hm]
        simp [upsertNewRow, hfind]

/-- The upserted row is the only row holding the key. -/
theorem rowUpsert_key_unique {db : Db} {key : String} {now : Int}
    {et : Option Int} {tg : Tag} {sz md : Nat} {fn : Option String}
    {dv : Option Bytes} (hwf : dbWF db) :
    ∀ r' ∈ (rowUpsert db key now et tg sz md fn dv).1, r'.key = key →
      r' = upsertNewRow db key now et tg sz md fn dv := by
  intro r' hmem hkey
  have hk2 : (upsertNewRow db key now et tg sz md fn dv).key = key :=
    (@upsertNewRow_fields db key now et tg sz md fn dv).1
  exact field_unique (rowUpsert_keys_nodup hwf) hmem upsertNewRow_mem
    (by rw [hkey, hk2])

/-- The captured old filename belongs to the replaced row. -/
theorem rowUpsert_cleanup_mem {db : Db} {key : String} {now : Int}
    {et : Option Int} {tg : Tag} {sz md : Nat} {fn : Option String}
    {dv : Option Bytes} {f : String}
    (h : f ∈ (rowUpsert db key now et tg sz md fn dv).2) :
    ∃ r0 ∈ db, r0.key = key ∧ r0.filename = some f := by
  cases hfind : findRow? (fun r => r.key == key) db with
  | some r0 =>
      simp only [rowUpsert, hfind] at h
      obtain ⟨hm0, hp0⟩ := findRow?_some hfind
      cases hf0 : r0.filename with
      | some f0 =>
          rw [hf0] at h
          simp only [List.mem_singleton] at h
          exact ⟨r0, hm0, by simpa using hp0, by rw [hf0, h]⟩
      | none => rw [hf0] at h; simp at h
  | none => simp [rowUpsert, hfind] at h

theorem rowUpsert_volume_le {db : Db} {key : String} {now : Int}
    {et : Option Int} {tg : Tag} {sz md : Nat} {fn : Option String}
    {dv : Option Bytes} (hwf : dbWF db) :
    dbVolume (rowUpsert db key now et tg sz md fn dv).1 ≤ dbVolume db + sz := by
  cases hfind : findRow? (fun r => r.key == key) db with
  | some r0 =>
      simp only [rowUpsert, hfind]
      exact dbVolume_update_le hwf.2 r0.rowid (fun r => updRow_size _ _ _ _ _ _ _ r)
  | none =>
      simp only [rowUpsert, hfind]
      rw [dbVolume_append]
      simp

/-! ## The get-after-set round trip -/

@[simp] theorem fetch_raw (fs : Fs) (fn : Option String) (v : Option Bytes) :
    fetch fs MODE_RAW fn v = v := by
  simp [fetch]

@[simp] theorem fetch_binary (fs : Fs) (f : String) (v : Option Bytes) :
    fetch fs MODE_BINARY (some f) v = fsGet fs f := by
  simp [fetch, MODE_RAW, MODE_BINARY]

/-- After a successful `aset` with a positive expiry, as long as the table
(after the upsert) fits the byte budget so the fresh entry is not itself
swept, `cache_get` at the same instant returns exactly the streamed bytes
together with the committed expiry and tag. -/
theorem cache_get_after_aset {cfg : Config} {st : ServerState} {key : String}
    {chunks : List Bytes} {e : Int} {tag0 : Tag} {cl : Option Int} {now : Int}
    {fname : String} {st' : ServerState}
    (hwf : dbWF st.db)
    (hfresh : ∀ r ∈ st.db, r.filename ≠ some fname)
    (hepos : 0 < e)
    (hvol : dbVolume st.db + (streamBytes chunks).length ≤ cfg.size_limit)
    (h : aset cfg st key chunks (some e) tag0 cl now fname = (st', none)) :
    cache_get st'.db st'.fs key now =
      some (streamBytes chunks, some (now + e),
        tagSet (tagSet tag0 "Content-Length"
          (toString (streamBytes chunks).length)) "Etag"
          (sha256hex (streamBytes chunks))) := by
  rcases hst : astore cfg st.fs fname chunks cl with ⟨fs1, res⟩
  cases res with
  | error e2 =>
      simp only [aset, hst] at h
      exact absurd (congrArg Prod.snd h) (by simp)
  | ok r =>
      simp only [aset, hst] at h
      obtain ⟨hsz, hdg, hdisj⟩ := astore_ok hst
      have hst' : st' =
          ⟨(aset_transaction cfg st.db key now (some e)
              (tagSet (tagSet tag0 "Content-Length" (toString r.size))
                "Etag" r.digest) r.size r.mode r.filename r.db_value).1,
            fsRemoveAll fs1
              (aset_transaction cfg st.db key now (some e)
                (tagSet (tagSet tag0 "Content-Length" (toString r.size))
                  "Etag" r.digest) r.size r.mode r.filename r.db_value).2⟩ := by
        have := congrArg Prod.fst h
        simpa using this.symm
      set tg := tagSet (tagSet tag0 "Content-Length" (toString r.size))
        "Etag" r.digest with htg
      have htrans : aset_transaction cfg st.db key now (some e) tg
          r.size r.mode r.filename r.db_value =
          ((cull cfg now (rowUpsert st.db key now (some (now + e)) tg
              r.size r.mode r.filename r.db_value).1).1,
            (rowUpsert st.db key now (some (now + e)) tg
              r.size r.mode r.filename r.db_value).2 ++
            (cull cfg now (rowUpsert st.db key now (some (now + e)) tg
              r.size r.mode r.filename r.db_value).1).2) := by
        simp [aset_transaction]
      set mid := (rowUpsert st.db key now (some (now + e)) tg
        r.size r.mode r.filename r.db_value).1 with hmid
      set cl0 := (rowUpsert st.db key now (some (now + e)) tg
        r.size r.mode r.filename r.db_value).2 with hcl0
      set nr := upsertNewRow st.db key now (some (now + e)) tg
        r.size r.mode r.filename r.db_value with hnr
      obtain ⟨hnrk, hnret, hnrtag, hnrsz, hnrmd, hnrfn, hnrdv⟩ :=
        @upsertNewRow_fields st.db key now (some (now + e)) tg r.size r.mode
          r.filename r.db_value
      rw [← hnr] at hnrk hnret hnrtag hnrsz hnrmd hnrfn hnrdv
      have hnotexp : rowExpired now nr = false := by
        simp only [rowExpired, hnret]
        simp only [decide_eq_false_iff_not, not_lt]
        omega
      have hlive : rowLive now nr = true := by
        simp only [rowLive, hnret]
        simp only [decide_eq_true_eq]
        omega
      have hvolmid : dbVolume mid ≤ cfg.size_limit := by
        have h1 := @rowUpsert_volume_le st.db key now (some (now + e)) tg
          r.size r.mode r.filename r.db_value hwf
        rw [← hmid] at h1
        omega
      have hculleq := @cull_noop cfg now mid hvolmid
      have hdbeq : st'.db = mid.filter (fun r => !rowExpired now r) := by
        rw [hst']
        simp only [htrans, hculleq]
      have hfseq : st'.fs =
          fsRemoveAll fs1 (cl0 ++ cullExpiredNames now mid) := by
        rw [hst']
        simp only [htrans, hculleq]
      have hnrmem : nr ∈ mid.filter (fun r => !rowExpired now r) :=
        List.mem_filter.mpr ⟨upsertNewRow_mem, by simp [hnotexp]⟩
      have hkeysnd : ((mid.filter (fun r => !rowExpired now r)).map
          Row.key).Nodup :=
        ((rowUpsert_keys_nodup hwf).sublist
          ((List.filter_sublist mid).map Row.key))
      have hfind' : findRow? (fun r => r.key == key && rowLive now r)
          (mid.filter (fun r => !rowExpired now r)) = some nr := by
        apply findRow?_of_unique hkeysnd hnrmem
        · simp [hnrk, hlive]
        · intro r' _ hp'
          simp only [Bool.and_eq_true, beq_iff_eq] at hp'
          rw [hp'.1, hnrk]
      have hfetch : fetch st'.fs nr.mode nr.filename nr.value =
          some (streamBytes chunks) := by
        rcases hdisj with ⟨hm, hv, hf, hfs⟩ | ⟨hm, hv, hf, hfs⟩
        · rw [hnrmd, hnrdv, hm, hv, fetch_raw]
        · rw [hnrmd, hnrfn, hm, hf, fetch_binary]
          have hnotin : fname ∉ cl0 ++ cullExpiredNames now mid := by
            intro hmem
            rcases List.mem_append.mp hmem with hin | hin
            · obtain ⟨r0, hr0, _, hr0f⟩ := rowUpsert_cleanup_mem hin
              exact hfresh r0 hr0 hr0f
            · obtain ⟨rr, hrrmem, hexp, hrrf⟩ :=
                mem_cullExpiredNames.mp hin
              rcases rowUpsert_mem hwf rr hrrmem with heqr | hinr
              · have heqr' : rr = nr := heqr
                rw [heqr', hnotexp] at hexp
                exact absurd hexp (by simp)
              · exact hfresh rr hinr hrrf
          rw [hfseq, hfs]
          rw [fsGet_fsRemoveAll_of_not_mem _ _ hnotin]
          exact fsGet_fsWrite_self st.fs fname (streamBytes chunks)
      simp only [cache_get, hdbeq, hfind', hfetch, hnret, hnrtag]
      rw [htg, hsz, hdg]

/-! ## Helper lemmas: header passthrough and handler inversion -/

theorem hGet_applyHeader_other {t headers : Tag} {src dst k : String}
    (h : k ≠ dst) : hGet (applyHeader t headers src dst) k = hGet t k := by
  unfold applyHeader
  cases hs : hGet headers src with
  | none => rfl
  | some v =>
      by_cases hv : v = ""
      · simp [hv]
      · simp [hv, hGet_tagSet_other _ _ _ h]

theorem hGet_applyHeader_self {t headers : Tag} {src dst : String} {v : String}
    (h : hGet headers src = some v) (hv : v ≠ "") :
    hGet (applyHeader t headers src dst) dst = some v := by
  unfold applyHeader
  rw [h]
  simp [hv, hGet_tagSet_self]

theorem findRow?_none_of {p : Row → Bool} {l : Db}
    (h : ∀ r ∈ l, p r = false) : findRow? p l = none := by
  induction l with
  | nil => rfl
  | cons x rest ih =>
      simp only [findRow?]
      rw [if_neg (by simp [h x (List.mem_cons_self _ _)])]
      exact ih (fun r hr => h r (List.mem_cons_of_mem _ hr))

/-- A lookup misses when no row of the key is visible. -/
theorem cache_get_none_of_dead {db : Db} {fs : Fs} {key : String} {t : Int}
    (h : ∀ r ∈ db, r.key = key → rowLive t r = false) :
    cache_get db fs key t = none := by
  rw [cache_get, findRow?_none_of]
  intro r hr
  by_cases hk : r.key = key
  · simp [h r hr hk]
  · simp [hk]

/-- A successful `put_raw` means: the name was not reserved, both headers
parsed, and `aset` committed with no error. -/
theorem put_raw_ok_inv {cfg : Config} {st : ServerState} {now : Int}
    {name : String} {headers : Tag} {body : List Bytes} {fname nowStr : String}
    (h : (put_raw cfg st now name headers body fname nowStr).2 =
      .resp 200 "") :
    ∃ e clv, startsReserved name = false ∧ parseExpire headers = some e ∧
      parseCL headers = .ok clv ∧
      aset cfg st name body (some e) (create_tag_from_request nowStr headers)
        clv now fname =
        ((put_raw cfg st now name headers body fname nowStr).1, none) := by
  by_cases hres : startsReserved name
  · simp [put_raw, hres] at h
  · cases hexp : parseExpire headers with
    | none => simp [put_raw, hres, hexp] at h
    | some e =>
        cases hcl : parseCL headers with
        | error u => simp [put_raw, hres, hexp, hcl] at h
        | ok clv =>
            rcases haset : aset cfg st name body (some e)
              (create_tag_from_request nowStr headers) clv now fname
              with ⟨st2, err⟩
            cases err with
            | some pe =>
                cases pe <;> simp [put_raw, hres, hexp, hcl, haset] at h
            | none =>
                refine ⟨e, clv, by simp [hres], rfl, rfl, ?_⟩
                rw [haset]
                have : (put_raw cfg st now name headers body fname
                    nowStr).1 = st2 := by
                  simp [put_raw, hres, hexp, hcl, haset]
                rw [this]

/-! ## Helper lemmas: the digest alphabet -/

theorem hexChar_mem (n : Nat) : hexChar n ∈ ("0123456789abcdef").data := by
  unfold hexChar
  split <;> decide

theorem mem_foldl_wordHex {ws : List Nat} {acc : List Char} {c : Char}
    (h : c ∈ ws.foldl (fun acc w => acc ++ wordHex w) acc) :
    c ∈ acc ∨ c ∈ ("0123456789abcdef").data := by
  induction ws generalizing acc with
  | nil => exact Or.inl h
  | cons w rest ih =>
      rcases ih h with hin | hin
      · rcases List.mem_append.mp hin with h1 | h2
        · exact Or.inl h1
        · right
          obtain ⟨i, _, hc⟩ :
              ∃ i, i < 8 ∧ hexChar (w >>> (4 * (7 - i)) % 16) = c := by
            simpa [wordHex] using h2
          rw [← hc]
          exact hexChar_mem _
      · exact Or.inr hin

/-- The digest is spelled with lowercase hexadecimal characters only. -/
theorem sha256hex_chars (msg : Bytes) :
    ∀ c ∈ (sha256hex msg).data, c ∈ ("0123456789abcdef").data := by
  intro c hc
  simp only [sha256hex] at hc
  rcases mem_foldl_wordHex hc with hin | hin
  · simp at hin
  · exact hin

/-! ## Claim C2 -/

set_option maxRecDepth 400000 in
/-- C2 (counterexample): the claim's inline criterion fails on the code.
With `inline_threshold = 1` a one-byte value whose declared Content-Length
is 1 is stored in FILE mode (`1 < 1` is false) and a file is created; and
with the default threshold a one-byte value with no declared Content-Length
is stored in FILE mode although its size is far below the threshold. -/
theorem c2_counterexample :
    astore ⟨1, 314572800, 8589934592, 10⟩ [] "f0" [[120]] (some 1) =
      ([("f0", [120])],
        .ok ⟨1, MODE_BINARY, some "f0", none, sha256hex [120]⟩) ∧
    astore defaultConfig [] "f0" [[120]] none =
      ([("f0", [120])],
        .ok ⟨1, MODE_BINARY, some "f0", none, sha256hex [120]⟩) ∧
    (1 : Nat) < defaultConfig.min_file_size ∧ MODE_BINARY ≠ MODE_RAW := by
  refine ⟨?_, ?_, by decide, by decide⟩ <;> decide

/-- C2 (amended): a successful `astore` stores inline (`MODE_RAW`) iff the
request declared a Content-Length and the declared value is below
`min_file_size`; an inline result leaves the filesystem untouched and its
size is below the threshold, while a file-mode result creates the blob
file.  With no declared Content-Length the value is stored as a file
regardless of its size. -/
theorem c2_amended (cfg : Config) (fs : Fs) (fname : String)
    (chunks : List Bytes) (cl : Option Int) (fs' : Fs) (r : StoreRes)
    (h : astore cfg fs fname chunks cl = (fs', .ok r)) :
    (r.mode = MODE_RAW ↔ ∃ c, cl = some c ∧ c < (cfg.min_file_size : Int)) ∧
    (r.mode = MODE_RAW → (r.size : Int) < (cfg.min_file_size : Int) ∧
      fs' = fs) ∧
    (r.mode = MODE_BINARY →
      fsGet fs' fname = some (streamBytes chunks)) := by
  unfold astore at h
  cases cl with
  | none =>
      obtain ⟨hfs, hr⟩ := astoreFile_ok h
      subst hr
      refine ⟨?_, ?_, ?_⟩
      · constructor
        · intro hm; simp [ MODE_RAW, MODE_BINARY] at hm
        · rintro ⟨c, hc, -⟩; exact absurd hc (by simp)
      · intro hm; simp [ MODE_RAW, MODE_BINARY] at hm
      · intro _
        rw [hfs]
        exact fsGet_fsWrite_self _ _ _
  | some c =>
      simp only at h
      split at h
      · rename_i hlt
        have h2 : astoreRaw chunks c = .ok r := by
          simpa using congrArg Prod.snd h
        have h1 : fs = fs' := by
          simpa using congrArg Prod.fst h
        obtain ⟨hr, hcl⟩ := astoreRaw_ok h2
        subst hr
        refine ⟨?_, ?_, ?_⟩
        · exact ⟨fun _ => ⟨c, rfl, hlt⟩, fun _ => rfl⟩
        · intro _
          constructor
          · simp only
            omega
          · exact h1.symm
        · intro hm; simp [ MODE_RAW, MODE_BINARY] at hm
      · rename_i hlt
        obtain ⟨hfs, hr⟩ := astoreFile_ok h
        subst hr
        refine ⟨?_, ?_, ?_⟩
        · constructor
          · intro hm; simp [ MODE_RAW, MODE_BINARY] at hm
          · rintro ⟨c', hc', hlt'⟩
            injection hc' with hcc
            subst hcc
            exact absurd hlt' hlt
        · intro hm; simp [ MODE_RAW, MODE_BINARY] at hm
        · intro _
          rw [hfs]
          exact fsGet_fsWrite_self _ _ _

set_option maxRecDepth 400000 in
/-- C2 (witness): a declared one-byte body below the default threshold is
stored inline with the filesystem untouched. -/
theorem c2_witness :
    astore defaultConfig [] "f0" [[120]] (some 1) =
      ([], .ok ⟨1, MODE_RAW, none, some [120], sha256hex [120]⟩) ∧
    ((⟨1, MODE_RAW, none, some [120], sha256hex [120]⟩ : StoreRes).mode =
        MODE_RAW ↔
      ∃ c, (some 1 : Option Int) = some c ∧
        c < (defaultConfig.min_file_size : Int)) :=
  ⟨by decide,
    (c2_amended defaultConfig [] "f0" [[120]] (some 1) []
      ⟨1, MODE_RAW, none, some [120], sha256hex [120]⟩ (by decide)).1⟩

/-! ## Claim C3 -/

/-- C3 (code bug): an ingest that crosses `value_size_limit` does fail with
the size-limit error, yields a 400 "size limit exceeded", and leaves no
index row (a GET misses) — but the partial blob file is NOT removed: with
`VALUE_SIZE_LIMIT = 10` and a chunked 11-byte body with no declared length,
the five bytes already written stay on disk after the handler returns. -/
theorem c3_partial_file_leak :
    put_raw ⟨32768, 10, 8589934592, 10⟩ ⟨[], []⟩ 0 "k" []
        [[1, 2, 3, 4, 5], [6, 7, 8, 9, 10, 11]] "f0" "LM" =
      (⟨[], [("f0", [1, 2, 3, 4, 5])]⟩, .resp 400 "size limit exceeded") ∧
    fsGet [("f0", [1, 2, 3, 4, 5])] "f0" = some [1, 2, 3, 4, 5] ∧
    get_raw [] [("f0", [1, 2, 3, 4, 5])] "k" 0 none = ⟨404, [], []⟩ := by
  refine ⟨?_, ?_, ?_⟩ <;> decide

/-! ## Claim C4 -/

/-- C4 (code bug): a declared Content-Length that disagrees with the body
does fail with `SizeDifferentException`, yields a 400 "content-length
different", and writes no index row — but in the file branch (declared
length at or above the inline threshold) the fully written blob file is NOT
removed: a PUT declaring 40000 bytes that sends one byte leaves that byte
on disk. -/
theorem c4_partial_file_leak :
    put_raw defaultConfig ⟨[], []⟩ 0 "k" [("content-length", "40000")]
        [[97]] "f0" "LM" =
      (⟨[], [("f0", [97])]⟩, .resp 400 "content-length different") ∧
    fsGet [("f0", [97])] "f0" = some [97] ∧
    get_raw [] [("f0", [97])] "k" 0 none = ⟨404, [], []⟩ := by
  refine ⟨?_, ?_, ?_⟩ <;> decide

/-! ## Claim C5 -/

/-- C5 (counterexample): a PUT whose `x-diskcache-expire` header is not a
valid integer does NOT get a 400 response: the `int(...)` call sits outside
the `try`, so the handler raises and the framework answers 500.  The cache
state is unchanged. -/
theorem c5_counterexample :
    put_raw defaultConfig ⟨[], []⟩ 0 "k" [("x-diskcache-expire", "abc")]
        [[120]] "f0" "LM" = (⟨[], []⟩, .crash) ∧
    HandlerResult.crash ≠ .resp 400 "invalid Content-Length value" := by
  exact ⟨by decide, by decide⟩

/-- C5 (amended): on a non-reserved name, a malformed `x-diskcache-expire`
escapes the handler as an uncaught exception (HTTP 500) with the state
unchanged, while a malformed `Content-Length` (with a well-formed or absent
expire header) is caught and mapped to 400 "invalid Content-Length value",
also with the state unchanged. -/
theorem c5_amended (cfg : Config) (st : ServerState) (now : Int)
    (name : String) (headers : Tag) (body : List Bytes)
    (fname nowStr : String) (hname : startsReserved name = false) :
    (∀ s, hGet headers "x-diskcache-expire" = some s → parsePyInt s = none →
      put_raw cfg st now name headers body fname nowStr = (st, .crash)) ∧
    (∀ e s, parseExpire headers = some e →
      hGet headers "content-length" = some s → parsePyInt s = none →
      put_raw cfg st now name headers body fname nowStr =
        (st, .resp 400 "invalid Content-Length value")) := by
  constructor
  · intro s hs hp
    simp [put_raw, hname, parseExpire, hs, hp]
  · intro e s he hcl hp
    simp [put_raw, hname, he, parseCL, hcl, hp]

/-- C5 (witness): both amended behaviours at concrete requests. -/
theorem c5_witness :
    startsReserved "k" = false ∧
    put_raw defaultConfig ⟨[], []⟩ 0 "k" [("x-diskcache-expire", "abc")]
      [] "f0" "LM" = (⟨[], []⟩, .crash) ∧
    put_raw defaultConfig ⟨[], []⟩ 0 "k" [("content-length", "xyz")]
      [] "f0" "LM" = (⟨[], []⟩, .resp 400 "invalid Content-Length value") :=
  ⟨by decide,
    (c5_amended defaultConfig ⟨[], []⟩ 0 "k"
      [("x-diskcache-expire", "abc")] [] "f0" "LM" (by decide)).1
      "abc" (by decide) (by decide),
    (c5_amended defaultConfig ⟨[], []⟩ 0 "k"
      [("content-length", "xyz")] [] "f0" "LM" (by decide)).2
      86400 "xyz" (by decide) (by decide) (by decide)⟩

/-! ## Claim C7 -/

/-- C7: a PUT or DELETE whose path starts with the reserved prefix is
answered 400 and leaves the whole server state (index rows, hence volume
and count, and the blob directory) unchanged. -/
theorem c7_reserved_rejected (cfg : Config) (st : ServerState) (now : Int)
    (name : String) (headers : Tag) (body : List Bytes)
    (fname nowStr : String) (h : startsReserved name = true) :
    put_raw cfg st now name headers body fname nowStr =
      (st, .resp 400 "path must not start with -/") ∧
    delete_content st name now =
      (st, .resp 400 "path must not start with -/") := by
  constructor
  · simp [put_raw, h]
  · simp [delete_content, h]

/-- C7 (witness): a reserved name (dash-slash-x) on a non-trivial state. -/
theorem c7_witness :
    startsReserved "-/x" = true ∧
    put_raw defaultConfig ⟨[], [("g", [1])]⟩ 0 "-/x" [] [[2]] "f0" "LM" =
      (⟨[], [("g", [1])]⟩, .resp 400 "path must not start with -/") ∧
    delete_content ⟨[], [("g", [1])]⟩ "-/x" 0 =
      (⟨[], [("g", [1])]⟩, .resp 400 "path must not start with -/") :=
  ⟨by decide,
    (c7_reserved_rejected defaultConfig ⟨[], [("g", [1])]⟩ 0 "-/x" [] [[2]]
      "f0" "LM" (by decide)).1,
    (c7_reserved_rejected defaultConfig ⟨[], [("g", [1])]⟩ 0 "-/x" [] [[2]]
      "f0" "LM" (by decide)).2⟩

/-! ## Claim C6 -/

/-- C6: for a stored, visible entry (a lookup hit) whose tag holds the
digest `d` as `Etag`, a GET with `If-None-Match = d` answers 304 with an
empty body and exactly the headers the 200 response would carry, and the
GET without the header does answer 200 with the value. -/
theorem c6_conditional_get (db : Db) (fs : Fs) (name : String) (now : Int)
    (d : String) (v : Bytes) (et : Option Int) (tg : Tag)
    (hget : cache_get db fs name now = some (v, et, tg))
    (hetag : hGet tg "Etag" = some d) :
    get_raw db fs name now (some d) =
      ⟨304, (get_raw db fs name now none).headers, []⟩ ∧
    get_raw db fs name now none =
      ⟨200, (get_raw db fs name now none).headers, v⟩ := by
  constructor
  · simp [get_raw, hget, hetag]
  · simp [get_raw, hget]

/-- C6 (witness): a concrete inline entry with a matching `If-None-Match`. -/
theorem c6_witness :
    cache_get [⟨1, "k", 0, some 100, 0, 0, [("Etag", "d1")], 1, MODE_RAW,
        none, some [120]⟩] [] "k" 0 =
      some ([120], some 100, [("Etag", "d1")]) ∧
    get_raw [⟨1, "k", 0, some 100, 0, 0, [("Etag", "d1")], 1, MODE_RAW,
        none, some [120]⟩] [] "k" 0 (some "d1") =
      ⟨304, (get_raw [⟨1, "k", 0, some 100, 0, 0, [("Etag", "d1")], 1,
        MODE_RAW, none, some [120]⟩] [] "k" 0 none).headers, []⟩ :=
  ⟨by decide,
    (c6_conditional_get [⟨1, "k", 0, some 100, 0, 0, [("Etag", "d1")], 1,
        MODE_RAW, none, some [120]⟩] [] "k" 0 "d1" [120] (some 100)
      [("Etag", "d1")] (by decide) (by decide)).1⟩

/-! ## Claim C1 -/

/-- A lookup hit renders a 200 with the tag (plus the `Expire` header when
the entry has a truthy expiry) and the value as body. -/
theorem get_raw_hit {db : Db} {fs : Fs} {name : String} {now : Int}
    {v : Bytes} {et : Option Int} {tg : Tag}
    (hget : cache_get db fs name now = some (v, et, tg)) :
    get_raw db fs name now none =
      ⟨200,
        match et with
        | some e => if e = 0 then tg else tagSet tg "Expire" (expireFmt e)
        | none => tg,
        v⟩ := by
  cases et with
  | some e => simp [get_raw, hget]
  | none => simp [get_raw, hget]

set_option maxRecDepth 400000 in
/-- C1 (counterexample): with `CACHE_SIZE_LIMIT = 1` a PUT of the two-byte
body `xy` succeeds (200), but the eviction sweep running inside the same
upsert transaction immediately evicts the fresh entry, so the subsequent
GET returns 404, not 200. -/
theorem c1_counterexample :
    (put_raw ⟨32768, 314572800, 1, 10⟩ ⟨[], []⟩ 0 "k"
        [("content-length", "2")] [[120, 121]] "f0" "LM").2 =
      .resp 200 "" ∧
    get_raw (put_raw ⟨32768, 314572800, 1, 10⟩ ⟨[], []⟩ 0 "k"
        [("content-length", "2")] [[120, 121]] "f0" "LM").1.db
      (put_raw ⟨32768, 314572800, 1, 10⟩ ⟨[], []⟩ 0 "k"
        [("content-length", "2")] [[120, 121]] "f0" "LM").1.fs
      "k" 0 none = ⟨404, [], []⟩ := by
  exact ⟨by decide, by decide⟩

/-- C1 (amended): after a successful PUT of a body streaming the bytes `B`
(on a well-formed table, with a fresh blob filename, a positive parsed
expiry, and the table after the upsert within `size_limit` so the fresh
entry survives the sweep), a GET of the same name at the same instant
returns status 200, body `B`, and an `Etag` header equal to the SHA-256
digest of `B` spelled in lowercase hexadecimal. -/
theorem c1_roundtrip (cfg : Config) (st : ServerState) (now : Int)
    (name : String) (headers : Tag) (body : List Bytes)
    (fname nowStr : String) (e : Int)
    (hwf : dbWF st.db)
    (hfresh : ∀ r ∈ st.db, r.filename ≠ some fname)
    (hexp : parseExpire headers = some e) (hepos : 0 < e)
    (hvol : dbVolume st.db + (streamBytes body).length ≤ cfg.size_limit)
    (hput : (put_raw cfg st now name headers body fname nowStr).2 =
      .resp 200 "") :
    (get_raw (put_raw cfg st now name headers body fname nowStr).1.db
      (put_raw cfg st now name headers body fname nowStr).1.fs
      name now none).status = 200 ∧
    (get_raw (put_raw cfg st now name headers body fname nowStr).1.db
      (put_raw cfg st now name headers body fname nowStr).1.fs
      name now none).body = streamBytes body ∧
    hGet (get_raw (put_raw cfg st now name headers body fname nowStr).1.db
      (put_raw cfg st now name headers body fname nowStr).1.fs
      name now none).headers "Etag" =
        some (sha256hex (streamBytes body)) ∧
    ∀ c ∈ (sha256hex (streamBytes body)).data,
      c ∈ ("0123456789abcdef").data := by
  obtain ⟨e', clv, hres, hexp', hcl, haset⟩ := put_raw_ok_inv hput
  rw [hexp] at hexp'
  injection hexp' with hee
  subst hee
  have hget := cache_get_after_aset hwf hfresh hepos hvol haset
  rw [get_raw_hit hget]
  refine ⟨rfl, rfl, ?_, sha256hex_chars _⟩
  simp only
  by_cases hz : now + e = 0
  · simp only [if_pos hz]
    exact hGet_tagSet_self _ _ _
  · simp only [if_neg hz]
    rw [hGet_tagSet_other _ _ _ (by decide)]
    exact hGet_tagSet_self _ _ _

set_option maxRecDepth 400000 in
/-- C1 (witness): the spec's basic round trip at the deployment defaults:
PUT `hello world` under `data`, then GET it back. -/
theorem c1_witness :
    (put_raw defaultConfig ⟨[], []⟩ 0 "data" [("content-length", "11")]
      [[104, 101, 108, 108, 111, 32, 119, 111, 114, 108, 100]]
      "f0" "LM").2 = .resp 200 "" ∧
    (get_raw (put_raw defaultConfig ⟨[], []⟩ 0 "data"
        [("content-length", "11")]
        [[104, 101, 108, 108, 111, 32, 119, 111, 114, 108, 100]]
        "f0" "LM").1.db
      (put_raw defaultConfig ⟨[], []⟩ 0 "data" [("content-length", "11")]
        [[104, 101, 108, 108, 111, 32, 119, 111, 114, 108, 100]]
        "f0" "LM").1.fs
      "data" 0 none).status = 200 ∧
    (get_raw (put_raw defaultConfig ⟨[], []⟩ 0 "data"
        [("content-length", "11")]
        [[104, 101, 108, 108, 111, 32, 119, 111, 114, 108, 100]]
        "f0" "LM").1.db
      (put_raw defaultConfig ⟨[], []⟩ 0 "data" [("content-length", "11")]
        [[104, 101, 108, 108, 111, 32, 119, 111, 114, 108, 100]]
        "f0" "LM").1.fs
      "data" 0 none).body =
      streamBytes [[104, 101, 108, 108, 111, 32, 119, 111, 114, 108, 100]] ∧
    hGet (get_raw (put_raw defaultConfig ⟨[], []⟩ 0 "data"
        [("content-length", "11")]
        [[104, 101, 108, 108, 111, 32, 119, 111, 114, 108, 100]]
        "f0" "LM").1.db
      (put_raw defaultConfig ⟨[], []⟩ 0 "data" [("content-length", "11")]
        [[104, 101, 108, 108, 111, 32, 119, 111, 114, 108, 100]]
        "f0" "LM").1.fs
      "data" 0 none).headers "Etag" =
      some (sha256hex
        (streamBytes [[104, 101, 108, 108, 111, 32, 119, 111, 114, 108,
          100]])) := by
  have hc := c1_roundtrip defaultConfig ⟨[], []⟩ 0 "data"
    [("content-length", "11")]
    [[104, 101, 108, 108, 111, 32, 119, 111, 114, 108, 100]] "f0" "LM" 86400
    ⟨List.nodup_nil, List.nodup_nil⟩ (by simp) (by decide) (by decide)
    (by decide) (by decide)
  exact ⟨by decide, hc.1, hc.2.1, hc.2.2.1⟩

/-! ## Claim C8 -/

/-- The committed tag wraps the request tag in `Content-Length` and `Etag`;
other names look through. -/
theorem hGet_commit_tag (tag0 : Tag) (s d : String) {k : String}
    (h1 : k ≠ "Content-Length") (h2 : k ≠ "Etag") :
    hGet (tagSet (tagSet tag0 "Content-Length" s) "Etag" d) k =
      hGet tag0 k := by
  rw [hGet_tagSet_other _ _ _ h2, hGet_tagSet_other _ _ _ h1]

/-- The `Expire` header added on GET does not shadow other names. -/
theorem hGet_expire_wrap (tg : Tag) (e : Int) {k : String}
    (h : k ≠ "Expire") :
    hGet (if e = 0 then tg else tagSet tg "Expire" (expireFmt e)) k =
      hGet tg k := by
  by_cases hz : e = 0
  · simp [hz]
  · simp [hz, hGet_tagSet_other _ _ _ h]

theorem create_tag_ct {headers : Tag} {nowStr ct : String}
    (h : hGet headers "content-type" = some ct) (hne : ct ≠ "") :
    hGet (create_tag_from_request nowStr headers) "Content-Type" =
      some ct := by
  unfold create_tag_from_request
  rw [hGet_applyHeader_other (by decide)]
  exact hGet_applyHeader_self h hne

theorem create_tag_ce {headers : Tag} {nowStr ce : String}
    (h : hGet headers "content-encoding" = some ce) (hne : ce ≠ "") :
    hGet (create_tag_from_request nowStr headers) "Content-Encoding" =
      some ce := by
  unfold create_tag_from_request
  exact hGet_applyHeader_self h hne

theorem create_tag_cc {headers : Tag} {nowStr cc : String}
    (h : hGet headers "x-set-cache-control" = some cc) (hne : cc ≠ "") :
    hGet (create_tag_from_request nowStr headers) "Cache-Control" =
      some cc := by
  unfold create_tag_from_request
  rw [hGet_applyHeader_other (by decide), hGet_applyHeader_other (by decide)]
  exact hGet_applyHeader_self h hne

/-- The response a GET of the same name gives right after a PUT. -/
def put_then_get (cfg : Config) (st : ServerState) (now : Int)
    (name : String) (headers : Tag) (body : List Bytes)
    (fname nowStr : String) : GetResponse :=
  get_raw (put_raw cfg st now name headers body fname nowStr).1.db
    (put_raw cfg st now name headers body fname nowStr).1.fs name now none

set_option maxRecDepth 400000 in
/-- C8 (counterexample): header reflection on GET is not unconditional.
With `CACHE_SIZE_LIMIT = 1`, a PUT supplying `Content-Type: text/plain`
succeeds (200) but the upsert transaction's own eviction sweep removes the
fresh entry, so the subsequent GET is a 404 carrying no headers at all —
in particular no `Content-Type`. -/
theorem c8_counterexample :
    (put_raw ⟨32768, 314572800, 1, 10⟩ ⟨[], []⟩ 0 "doc"
        [("content-type", "text/plain"), ("content-length", "2")]
        [[120, 121]] "f0" "LM").2 = .resp 200 "" ∧
    put_then_get ⟨32768, 314572800, 1, 10⟩ ⟨[], []⟩ 0 "doc"
        [("content-type", "text/plain"), ("content-length", "2")]
        [[120, 121]] "f0" "LM" = ⟨404, [], []⟩ ∧
    hGet (put_then_get ⟨32768, 314572800, 1, 10⟩ ⟨[], []⟩ 0 "doc"
        [("content-type", "text/plain"), ("content-length", "2")]
        [[120, 121]] "f0" "LM").headers "Content-Type" = none := by
  refine ⟨?_, ?_, ?_⟩ <;> decide

/-- C8 (amended): after a successful PUT whose fresh entry survives
(well-formed table, fresh blob name, positive parsed expiry, volume within
budget so the in-transaction sweep does not evict it), the GET response
echoes the stored `Content-Type`,
`Content-Encoding` and `Cache-Control` (from `x-set-cache-control`) for
whichever of those headers the PUT supplied non-empty, and its
`Content-Length` header is the decimal byte size of the stored value. -/
theorem c8_header_roundtrip (cfg : Config) (st : ServerState) (now : Int)
    (name : String) (headers : Tag) (body : List Bytes)
    (fname nowStr : String) (e : Int)
    (hwf : dbWF st.db)
    (hfresh : ∀ r ∈ st.db, r.filename ≠ some fname)
    (hexp : parseExpire headers = some e) (hepos : 0 < e)
    (hvol : dbVolume st.db + (streamBytes body).length ≤ cfg.size_limit)
    (hput : (put_raw cfg st now name headers body fname nowStr).2 =
      .resp 200 "") :
    (∀ ct, hGet headers "content-type" = some ct → ct ≠ "" →
      hGet (put_then_get cfg st now name headers body fname nowStr).headers
        "Content-Type" = some ct) ∧
    (∀ ce, hGet headers "content-encoding" = some ce → ce ≠ "" →
      hGet (put_then_get cfg st now name headers body fname nowStr).headers
        "Content-Encoding" = some ce) ∧
    (∀ cc, hGet headers "x-set-cache-control" = some cc → cc ≠ "" →
      hGet (put_then_get cfg st now name headers body fname nowStr).headers
        "Cache-Control" = some cc) ∧
    hGet (put_then_get cfg st now name headers body fname nowStr).headers
      "Content-Length" = some (toString (streamBytes body).length) := by
  obtain ⟨e', clv, hres, hexp', hcl, haset⟩ := put_raw_ok_inv hput
  rw [hexp] at hexp'
  injection hexp' with hee
  subst hee
  have hget := cache_get_after_aset hwf hfresh hepos hvol haset
  unfold put_then_get
  rw [get_raw_hit hget]
  refine ⟨?_, ?_, ?_, ?_⟩
  · intro ct hct hne
    show hGet (if now + e = 0 then _ else _) "Content-Type" = some ct
    rw [hGet_expire_wrap _ _ (by decide),
      hGet_commit_tag _ _ _ (by decide) (by decide)]
    exact create_tag_ct hct hne
  · intro ce hce hne
    show hGet (if now + e = 0 then _ else _) "Content-Encoding" = some ce
    rw [hGet_expire_wrap _ _ (by decide),
      hGet_commit_tag _ _ _ (by decide) (by decide)]
    exact create_tag_ce hce hne
  · intro cc hcc hne
    show hGet (if now + e = 0 then _ else _) "Cache-Control" = some cc
    rw [hGet_expire_wrap _ _ (by decide),
      hGet_commit_tag _ _ _ (by decide) (by decide)]
    exact create_tag_cc hcc hne
  · show hGet (if now + e = 0 then _ else _) "Content-Length" = _
    rw [hGet_expire_wrap _ _ (by decide),
      hGet_tagSet_other _ _ _ (by decide)]
    exact hGet_tagSet_self _ _ _

set_option maxRecDepth 400000 in
/-- C8 (witness): a PUT with all three passthrough headers and a declared
length; the GET echoes them and reports the stored size. -/
theorem c8_witness :
    (put_raw defaultConfig ⟨[], []⟩ 0 "doc"
      [("content-type", "text/plain"), ("content-encoding", "gzip"),
        ("x-set-cache-control", "public"), ("content-length", "3")]
      [[1, 2, 3]] "f0" "LM").2 = .resp 200 "" ∧
    hGet (put_then_get defaultConfig ⟨[], []⟩ 0 "doc"
      [("content-type", "text/plain"), ("content-encoding", "gzip"),
        ("x-set-cache-control", "public"), ("content-length", "3")]
      [[1, 2, 3]] "f0" "LM").headers "Content-Type" = some "text/plain" ∧
    hGet (put_then_get defaultConfig ⟨[], []⟩ 0 "doc"
      [("content-type", "text/plain"), ("content-encoding", "gzip"),
        ("x-set-cache-control", "public"), ("content-length", "3")]
      [[1, 2, 3]] "f0" "LM").headers "Content-Encoding" = some "gzip" ∧
    hGet (put_then_get defaultConfig ⟨[], []⟩ 0 "doc"
      [("content-type", "text/plain"), ("content-encoding", "gzip"),
        ("x-set-cache-control", "public"), ("content-length", "3")]
      [[1, 2, 3]] "f0" "LM").headers "Cache-Control" = some "public" ∧
    hGet (put_then_get defaultConfig ⟨[], []⟩ 0 "doc"
      [("content-type", "text/plain"), ("content-encoding", "gzip"),
        ("x-set-cache-control", "public"), ("content-length", "3")]
      [[1, 2, 3]] "f0" "LM").headers "Content-Length" =
      some (toString (streamBytes [[1, 2, 3]]).length) := by
  have hc := c8_header_roundtrip defaultConfig ⟨[], []⟩ 0 "doc"
    [("content-type", "text/plain"), ("content-encoding", "gzip"),
      ("x-set-cache-control", "public"), ("content-length", "3")]
    [[1, 2, 3]] "f0" "LM" 86400 ⟨List.nodup_nil, List.nodup_nil⟩ (by simp)
    (by decide) (by decide) (by decide) (by decide)
  exact ⟨by decide, hc.1 "text/plain" (by decide) (by decide),
    hc.2.1 "gzip" (by decide) (by decide),
    hc.2.2.1 "public" (by decide) (by decide), hc.2.2.2⟩

/-! ## Claim C9 -/

/-- C9: on a well-formed table, the upsert transaction (a) keeps keys
unique — at most one row per key survives, (b) captures the replaced row's
filename in the returned post-commit unlink list, (c) when a prior row for
the key existed, updates it in place: no row of the result carries a fresh
rowid, and (d) runs the eviction sweep inside the same call: any other
pre-existing row missing from the result had its filename captured in the
same unlink list. -/
theorem c9_upsert_transaction (cfg : Config) (db : Db) (key : String)
    (now : Int) (expire : Option Int) (tag : Tag) (size : Nat) (mode : Nat)
    (filename : Option String) (dbValue : Option Bytes) (hwf : dbWF db) :
    (((aset_transaction cfg db key now expire tag size mode filename
        dbValue).1).map Row.key).Nodup ∧
    (∀ r0 ∈ db, r0.key = key → ∀ f, r0.filename = some f →
      f ∈ (aset_transaction cfg db key now expire tag size mode filename
        dbValue).2) ∧
    ((∃ r0 ∈ db, r0.key = key) →
      ∀ r' ∈ (aset_transaction cfg db key now expire tag size mode filename
        dbValue).1, r'.rowid ∈ db.map Row.rowid) ∧
    (∀ r0 ∈ db, r0.key ≠ key →
      r0 ∉ (aset_transaction cfg db key now expire tag size mode filename
        dbValue).1 →
      ∀ f, r0.filename = some f →
        f ∈ (aset_transaction cfg db key now expire tag size mode filename
          dbValue).2) := by
  have htr : aset_transaction cfg db key now expire tag size mode filename
      dbValue =
      ((cull cfg now (rowUpsert db key now
          (expire.map (fun e => now + e)) tag size mode filename
          dbValue).1).1,
        (rowUpsert db key now (expire.map (fun e => now + e)) tag size mode
          filename dbValue).2 ++
        (cull cfg now (rowUpsert db key now
          (expire.map (fun e => now + e)) tag size mode filename
          dbValue).1).2) := by
    simp [aset_transaction]
  rw [htr]
  refine ⟨?_, ?_, ?_, ?_⟩
  · exact (rowUpsert_keys_nodup hwf).sublist
      ((cull_sublist _ _ _).map Row.key)
  · intro r0 hr0 hk f hf
    cases hfind : findRow? (fun r => r.key == key) db with
    | none =>
        have := findRow?_eq_none hfind r0 hr0
        simp [hk] at this
    | some r0' =>
        obtain ⟨hm0, hp0⟩ := findRow?_some hfind
        have hkeq : r0.key = r0'.key := by
          rw [hk]
          exact (by simpa using hp0 : r0'.key = key).symm
        have heq : r0 = r0' := field_unique hwf.1 hr0 hm0 hkeq
        apply List.mem_append_left
        simp only [rowUpsert, hfind]
        rw [← heq, hf]
        simp
  · rintro ⟨r0, hr0, hk⟩ r' hr'
    cases hfind : findRow? (fun r => r.key == key) db with
    | none =>
        have := findRow?_eq_none hfind r0 hr0
        simp [hk] at this
    | some r0' =>
        have hmem : r' ∈ (rowUpsert db key now
            (expire.map (fun e => now + e)) tag size mode filename
            dbValue).1 := (cull_sublist _ _ _).subset hr'
        have := List.mem_map_of_mem Row.rowid hmem
        rwa [rowUpsert_map_rowid_update hfind] at this
  · intro r0 hr0 hkne hnot f hf
    have hmid : r0 ∈ (rowUpsert db key now
        (expire.map (fun e => now + e)) tag size mode filename
        dbValue).1 := by
      cases hfind : findRow? (fun r => r.key == key) db with
      | none =>
          simp only [rowUpsert, hfind]
          exact List.mem_append_left _ hr0
      | some r0' =>
          obtain ⟨hm0, hp0⟩ := findRow?_some hfind
          have hk0' : r0'.key = key := by simpa using hp0
          have hne : r0.rowid ≠ r0'.rowid := by
            intro he
            have : r0 = r0' := field_unique hwf.2 hr0 hm0 he
            rw [this, hk0'] at hkne
            exact hkne rfl
          simp only [rowUpsert, hfind]
          have : (fun r => if r.rowid = r0'.rowid then
              updRow now (expire.map (fun e => now + e)) tag size mode
                filename dbValue r else r) r0 = r0 := by
            simp [hne]
          rw [← this]
          exact List.mem_map_of_mem _ hr0
    have hnd : ((rowUpsert db key now (expire.map (fun e => now + e)) tag
        size mode filename dbValue).1).Nodup :=
      (rowUpsert_rowids_nodup hwf).of_map
    exact List.mem_append_right _ (cull_dropped hnd hmid hnot hf)

/-- C9 (witness): replacing the only row of a one-row table captures its
old filename for unlink. -/
theorem c9_witness :
    dbWF [⟨1, "k", 0, some 100, 0, 0, [], 5, MODE_BINARY, some "old",
      none⟩] ∧
    "old" ∈ (aset_transaction defaultConfig
      [⟨1, "k", 0, some 100, 0, 0, [], 5, MODE_BINARY, some "old", none⟩]
      "k" 10 (some 50) [] 3 MODE_RAW none (some [9])).2 := by
  have hwf : dbWF [⟨1, "k", 0, some 100, 0, 0, [], 5, MODE_BINARY,
      some "old", none⟩] := ⟨by decide, by decide⟩
  refine ⟨hwf, ?_⟩
  exact (c9_upsert_transaction defaultConfig
      [⟨1, "k", 0, some 100, 0, 0, [], 5, MODE_BINARY, some "old", none⟩]
      "k" 10 (some 50) [] 3 MODE_RAW none (some [9]) hwf).2.1
    ⟨1, "k", 0, some 100, 0, 0, [], 5, MODE_BINARY, some "old", none⟩
    (List.mem_cons_self _ _) rfl "old" rfl

/-! ## Claim C10 -/

/-- Every surviving row of the upserted key after a successful `aset` with
integer expiry `e` carries `expire_time = now + e`. -/
theorem aset_rows_expire {cfg : Config} {st : ServerState} {key : String}
    {chunks : List Bytes} {e : Int} {tag0 : Tag} {cl : Option Int}
    {now : Int} {fname : String} {st' : ServerState}
    (hwf : dbWF st.db)
    (h : aset cfg st key chunks (some e) tag0 cl now fname = (st', none)) :
    ∀ r' ∈ st'.db, r'.key = key → r'.expire_time = some (now + e) := by
  rcases hst : astore cfg st.fs fname chunks cl with ⟨fs1, res⟩
  cases res with
  | error e2 =>
      simp only [aset, hst] at h
      exact absurd (congrArg Prod.snd h) (by simp)
  | ok r =>
      simp only [aset, hst] at h
      have hdb : st'.db =
          (cull cfg now (rowUpsert st.db key now (some (now + e))
            (tagSet (tagSet tag0 "Content-Length" (toString r.size))
              "Etag" r.digest) r.size r.mode r.filename r.db_value).1).1 := by
        have h1 := congrArg Prod.fst h
        simp only at h1
        rw [← h1]
        simp [aset_transaction]
      intro r' hr' hk
      rw [hdb] at hr'
      have hmem := (cull_sublist _ _ _).subset hr'
      have heq := rowUpsert_key_unique hwf r' hmem hk
      rw [heq]
      exact (upsertNewRow_fields).2.1

/-- C10: every successful PUT stores a finite expiry: the surviving row for
the name has `expire_time = now + e` where `e` is the parsed
`x-diskcache-expire` value; with the header absent `e` is the default
86400; and with `x-diskcache-expire: 0` the stored expiry equals the store
time, so every GET at any instant from the store time on misses. -/
theorem c10_finite_expiry (cfg : Config) (st : ServerState) (now : Int)
    (name : String) (headers : Tag) (body : List Bytes)
    (fname nowStr : String)
    (hwf : dbWF st.db)
    (hput : (put_raw cfg st now name headers body fname nowStr).2 =
      .resp 200 "") :
    (∀ r ∈ (put_raw cfg st now name headers body fname nowStr).1.db,
      r.key = name → ∃ e, parseExpire headers = some e ∧
        r.expire_time = some (now + e)) ∧
    (hGet headers "x-diskcache-expire" = none →
      ∀ r ∈ (put_raw cfg st now name headers body fname nowStr).1.db,
        r.key = name → r.expire_time = some (now + 86400)) ∧
    (hGet headers "x-diskcache-expire" = some "0" →
      (∀ r ∈ (put_raw cfg st now name headers body fname nowStr).1.db,
        r.key = name → r.expire_time = some now) ∧
      ∀ t, now ≤ t →
        cache_get (put_raw cfg st now name headers body fname nowStr).1.db
          (put_raw cfg st now name headers body fname nowStr).1.fs
          name t = none) := by
  obtain ⟨e, clv, hres, hexp, hcl, haset⟩ := put_raw_ok_inv hput
  have hrows := aset_rows_expire hwf haset
  refine ⟨?_, ?_, ?_⟩
  · intro r hr hk
    exact ⟨e, hexp, hrows r hr hk⟩
  · intro hnone r hr hk
    have h86 : parseExpire headers = some 86400 := by
      simp [parseExpire, hnone, DEFAULT_EXPIRE]
    rw [hexp] at h86
    injection h86 with he
    rw [hrows r hr hk, he]
  · intro hzero
    have h0 : parseExpire headers = some 0 := by
      rw [parseExpire, hzero]
      decide
    rw [hexp] at h0
    injection h0 with he
    subst he
    constructor
    · intro r hr hk
      simpa using hrows r hr hk
    · intro t ht
      apply cache_get_none_of_dead
      intro r hr hk
      rw [rowLive, hrows r hr hk]
      simp only [decide_eq_false_iff_not, not_lt]
      omega

set_option maxRecDepth 400000 in
/-- C10 (witness): a PUT with `x-diskcache-expire: 0` succeeds, stores
`expire_time = store time`, and a GET five seconds later misses. -/
theorem c10_witness :
    (put_raw defaultConfig ⟨[], []⟩ 0 "k"
      [("x-diskcache-expire", "0"), ("content-length", "1")] [[120]]
      "f0" "LM").2 = .resp 200 "" ∧
    (put_raw defaultConfig ⟨[], []⟩ 0 "k"
      [("x-diskcache-expire", "0"), ("content-length", "1")] [[120]]
      "f0" "LM").1.db =
      [⟨1, "k", 0, some 0, 0, 0,
        [("Last-Modified", "LM"), ("Content-Length", "1"),
          ("Etag", sha256hex [120])], 1, MODE_RAW, none, some [120]⟩] ∧
    cache_get (put_raw defaultConfig ⟨[], []⟩ 0 "k"
        [("x-diskcache-expire", "0"), ("content-length", "1")] [[120]]
        "f0" "LM").1.db
      (put_raw defaultConfig ⟨[], []⟩ 0 "k"
        [("x-diskcache-expire", "0"), ("content-length", "1")] [[120]]
        "f0" "LM").1.fs
      "k" 5 = none := by
  have hc := c10_finite_expiry defaultConfig ⟨[], []⟩ 0 "k"
    [("x-diskcache-expire", "0"), ("content-length", "1")] [[120]]
    "f0" "LM" ⟨List.nodup_nil, List.nodup_nil⟩ (by decide)
  exact ⟨by decide, by decide, (hc.2.2 (by decide)).2 5 (by decide)⟩

end DiskcacheServer
